import Mathlib

/-!
# Verification of the PNG codec and TIC container against its specification

This file gives a shallow embedding, in Lean 4, of the binary codec layer of
the PNG/TIC image library: the color-format model and converters
(`format.ts`), the bit packer/unpacker (`packBits`/`unpackBits`), the PNG
chunk decoder and encoder (`binary/decode.ts`, `binary/encode.ts`) and the
TIC container (`binary/tic.ts`), together with theorems settling the
specification claims about them.

Conventions of the embedding:
* Byte buffers (`Uint8Array`) are `List Nat` whose elements are below 256;
  typed-array stores that wrap are written with explicit `% 256`.
* Out-of-bounds reads that yield JavaScript `undefined` are modelled with
  `l[i]?` (`Option Nat`) where the distinction is observable, and with
  `l.getD i 0` where JavaScript coerces the read to 0 before storing it in
  a typed array (`ToInt32 undefined = 0`).
* Fallible code (`throw`) is modelled with `Except String`, carrying the
  source's message strings.
* The platform deflate/inflate and CRC32 primitives are parameters of the
  encoder/decoder models.
-/

set_option maxHeartbeats 1000000
set_option synthInstance.maxSize 2000
set_option synthInstance.maxHeartbeats 400000

namespace PNGSpec

/-- The five PNG color formats of `types.ts` (`ColorFormats`). -/
inductive ColorFormat where
  | GrayScale
  | RGB
  | Indexed
  | GrayScaleAlpha
  | RGBA
deriving DecidableEq, Repr

/-- `colorFormatChannels` of `types.ts` (also `formatChannelCounts`). -/
def colorFormatChannels : ColorFormat → Nat
  | .Indexed => 1
  | .GrayScale => 1
  | .GrayScaleAlpha => 2
  | .RGB => 3
  | .RGBA => 4

/-- `colorFormatNumbers` (forward direction) of `types.ts`. -/
def colorFormatNumbers : ColorFormat → Nat
  | .GrayScale => 0
  | .RGB => 2
  | .Indexed => 3
  | .GrayScaleAlpha => 4
  | .RGBA => 6

/-- `colorFormatNumbers.revGet` of `types.ts`: the reverse lookup is
`undefined` (`none`) on numbers outside the table. -/
def colorFormatNumbersRev (n : Nat) : Option ColorFormat :=
  if n = 0 then some .GrayScale
  else if n = 2 then some .RGB
  else if n = 3 then some .Indexed
  else if n = 4 then some .GrayScaleAlpha
  else if n = 6 then some .RGBA
  else none

/-- The `DecodeResult` record of `types.ts`.  `palette` is present exactly
when the decoder produced one (`Indexed` branch); `trns` and `gamma` are the
optional ancillary-chunk fields.  `gamma` stores the raw 4-byte big-endian
integer of the gAMA chunk; the source divides it by 100000 into a float,
a constant rescaling on which no claim depends. -/
structure DecodeResult where
  raw : List Nat
  width : Nat
  height : Nat
  bitDepth : Nat
  colorFormat : ColorFormat
  palette : Option (List Nat) := none
  trns : Option (List Nat) := none
  gamma : Option Nat := none
deriving DecidableEq, Repr

/-! ## The RGBA-to-X validators of `format.ts` (`PNGFormatterTo`)

The source iterates `for (let i = 0; i < raw.length && valid; i += 4)`,
and compares typed-array reads with `===`; a read past the end yields
`undefined`, which compares unequal to every number and equal to itself.
The `Option Nat` values of `l[i]?` model this exactly. -/

/-- Loop of `canBeGrayScale`, iterating `i += 4` over the buffer; the
iteration at index `i` sees the suffix `raw.drop i`, so the loop is the
block recursion below.  A final block shorter than four bytes makes one of
the reads `undefined`, so its comparisons (against a number, or a defined
read against `undefined`) are false. -/
def canBeGrayScaleGo : List Nat → Bool
  | r :: g :: b :: a :: rest =>
    (r == g && r == b && a == 255) && canBeGrayScaleGo rest
  | [] => true
  | _ => false

/-- `PNGFormatterTo.canBeGrayScale`: every pixel has R=G=B and A=255. -/
def canBeGrayScale (raw : List Nat) : Bool := canBeGrayScaleGo raw

/-- Loop of `canBeRGB`: starting at index 3, check every alpha byte.  A
final block with no alpha byte (fewer than four bytes) is never read, as
the loop condition `i < length` already fails. -/
def canBeRGBGo : List Nat → Bool
  | _ :: _ :: _ :: a :: rest => (a == 255) && canBeRGBGo rest
  | _ => true

/-- `PNGFormatterTo.canBeRGB`: every pixel has A=255. -/
def canBeRGB (raw : List Nat) : Bool := canBeRGBGo raw

/-- Loop of `canBeGrayScaleAlpha`: R=G=B per pixel, alpha unread.  A final
three-byte block still has all three read indices defined, so its check is
performed; one- and two-byte blocks compare against `undefined` and fail. -/
def canBeGrayScaleAlphaGo : List Nat → Bool
  | r :: g :: b :: _ :: rest => (r == g && r == b) && canBeGrayScaleAlphaGo rest
  | [r, g, b] => r == g && r == b
  | [] => true
  | _ => false

/-- `PNGFormatterTo.canBeGrayScaleAlpha`: every pixel has R=G=B. -/
def canBeGrayScaleAlpha (raw : List Nat) : Bool := canBeGrayScaleAlphaGo raw

/-- `PNGFormatterTo.canBeRGBA`: the buffer length matches the dimensions. -/
def canBeRGBA (raw : List Nat) (width height : Nat) : Bool :=
  width * height * 4 == raw.length

/-- `Map.set` on first occurrence: the `_indexedPalette` key set keeps
insertion order.  Only key membership and count are observed by
`canBeIndexed`, so the model stores the ordered key list. -/
def insertKey (acc : List (Option Nat)) (k : Option Nat) : List (Option Nat) :=
  if k ∈ acc then acc else acc ++ [k]

/-- The key-collection loop of `canBeIndexed`, iterating `i += 4`: the key
of a pixel is `PNGFormatterTo.c2n(raw.subarray(i, i+3))
= (r << 16) + (g << 8) + b`.  When fewer than three bytes remain,
`color[2]` is `undefined` and the JavaScript sum is `NaN`, modelled as
`none` (`NaN` is a valid `Map` key equal only to itself, like `none`). -/
def paletteKeysGo : List Nat → List (Option Nat) → List (Option Nat)
  | r :: g :: b :: _ :: rest, acc =>
    paletteKeysGo rest (insertKey acc (some (r * 65536 + g * 256 + b)))
  | [r, g, b], acc => insertKey acc (some (r * 65536 + g * 256 + b))
  | [], acc => acc
  | _, acc => insertKey acc none

/-- The distinct 24-bit color keys of an RGBA buffer, in first-occurrence
order. -/
def paletteKeys (raw : List Nat) : List (Option Nat) := paletteKeysGo raw []

/-- `PNGFormatterTo.canBeIndexed`: requires `canBeRGB` and at most 256
distinct colors. -/
def canBeIndexed (raw : List Nat) : Bool :=
  if !canBeRGB raw then false
  else decide ((paletteKeys raw).length ≤ 256)

/-- `PNGFormatterTo.toGrayScale`: one byte per pixel, channel 0.
Out-of-bounds reads store 0 (`Uint8Array` coerces `undefined`). -/
def toGrayScale (raw : List Nat) : List Nat :=
  (List.range (raw.length / 4)).map fun i => raw.getD (i * 4) 0

/-- `PNGFormatterTo.toRGB`: drops every alpha byte.  Output index `k`
reads source index `(k/3)*4 + k%3`. -/
def toRGB (raw : List Nat) : List Nat :=
  (List.range (raw.length * 3 / 4)).map fun k => raw.getD (k / 3 * 4 + k % 3) 0

/-- `PNGFormatterTo.toGrayScaleAlpha`: channel 0 and alpha of each pixel. -/
def toGrayScaleAlpha (raw : List Nat) : List Nat :=
  (List.range (raw.length / 2)).map fun k =>
    if k % 2 = 0 then raw.getD (2 * k) 0 else raw.getD (2 * k + 1) 0

/-! ## The X-to-RGBA side of `format.ts` (`PNGFormatterFrom`) -/

/-- `PNGFormatterFrom.isCorrectFormat`: buffer-length validation, plus the
palette-index check for `Indexed` (the source compares the running maximum
index against `palette.length`, the palette byte count). -/
def isCorrectFormat (src : DecodeResult) : Bool :=
  if src.colorFormat = .Indexed then
    let maxIndex := src.raw.foldl (fun m v => if v > m then v else m) 0
    src.width * src.height == src.raw.length
      && (src.palette.getD []).length > maxIndex
  else
    src.width * src.height * colorFormatChannels src.colorFormat == src.raw.length

/-- `PNGFormatterFrom.fromGrayScale`: expand one gray byte into R=G=B plus
alpha 255 (`(i+1) % 4` falsy exactly on the alpha positions). -/
def fromGrayScale (raw : List Nat) : List Nat :=
  (List.range (raw.length * 4)).map fun i =>
    if (i + 1) % 4 = 0 then 255 else raw.getD (i / 4) 0

/-! ## Bit packing (`packBits` / `unpackBits` of `format.ts`)

These are the three-argument functions of `format.ts`: the output length
`(bytes.length * depth) / 8` is a `Uint8Array` allocation whose fractional
part is truncated (ToIndex truncation), so sample counts that do not fill a
whole byte lose their tail. -/

/-- The masked per-sample value packed by `packBits`: the loop body's
`(normalise ? normalisedValue : value) & ((1 << depth) - 1)` with
`value = bytes[idx]` (0 when out of bounds, as the `|=` store coerces). -/
def packValue (bytes : List Nat) (desiredBitDepth : Nat) (normalise : Bool)
    (idx : Nat) : Nat :=
  let value := bytes.getD idx 0
  let normalisedValue := value >>> (8 - desiredBitDepth)
  (if normalise then normalisedValue else value) &&& (2 ^ desiredBitDepth - 1)

/-- The inner `j` loop of `packBits`, producing output byte `i` by OR-ing the
shifted sample group `newRaw[i] |= ... << ((valuesPerByte - j - 1) * depth)`. -/
def packFold (bytes : List Nat) (desiredBitDepth : Nat) (normalise : Bool)
    (i : Nat) : Nat :=
  (List.range (8 / desiredBitDepth)).foldl (fun acc j =>
    acc ||| (packValue bytes desiredBitDepth normalise (i * (8 / desiredBitDepth) + j)
      <<< ((8 / desiredBitDepth - j - 1) * desiredBitDepth))) 0

/-- `packBits` of `format.ts`.  The output length
`(bytes.length * depth) / 8` is a `Uint8Array` allocation whose fractional
part is truncated, so sample counts that do not fill a whole byte lose
their tail. -/
def packBits (bytes : List Nat) (desiredBitDepth : Nat) (normalise : Bool) :
    List Nat :=
  if desiredBitDepth < 8 then
    (List.range (bytes.length * desiredBitDepth / 8)).map
      (packFold bytes desiredBitDepth normalise)
  else bytes

/-- The per-sample extraction of `unpackBits`:
`(bits[i*depth/8] >> (maxOffset - ((i*depth) & maxOffset))) & modulo`,
then optionally `mapRange`-normalised.  `mapRange v [0, 2^d - 1] [0, 255]`
is the linear rescale `v * 255 / (2^d - 1)`; for `d ∈ {1,2,4}` the division
is exact (`2^d - 1` divides 255), so the float result is an integer and the
`Uint8Array` store does not change it. -/
def unpackValue (bits : List Nat) (currentBitDepth : Nat) (normalise : Bool)
    (i : Nat) : Nat :=
  let v := (bits.getD (i * currentBitDepth / 8) 0
      >>> ((8 - currentBitDepth) - ((i * currentBitDepth) &&& (8 - currentBitDepth))))
    &&& (2 ^ currentBitDepth - 1)
  if normalise then v * 255 / (2 ^ currentBitDepth - 1) else v

/-- `unpackBits` of `format.ts`. -/
def unpackBits (bits : List Nat) (currentBitDepth : Nat) (normalise : Bool) :
    List Nat :=
  if currentBitDepth < 8 then
    (List.range (bits.length * 8 / currentBitDepth)).map
      (unpackValue bits currentBitDepth normalise)
  else bits

/-! ### Generic list access helpers -/

theorem getD_map_range (f : Nat → Nat) (n i : Nat) (h : i < n) :
    ((List.range n).map f).getD i 0 = f i := by
  simp [List.getD_eq_getElem?_getD, List.getElem?_map, List.getElem?_range h]

theorem getElem?_map_range (f : Nat → Nat) (n k : Nat) :
    ((List.range n).map f)[k]? = if k < n then some (f k) else none := by
  by_cases h : k < n
  · simp [List.getElem?_map, List.getElem?_range h, h]
  · rw [List.getElem?_eq_none (by simpa using Nat.le_of_not_lt h)]
    simp [h]

theorem getElem?_eq_some_getD (l : List Nat) (k : Nat) (h : k < l.length) :
    l[k]? = some (l.getD k 0) := by
  rw [List.getElem?_eq_getElem h]
  simp [List.getD_eq_getElem?_getD, List.getElem?_eq_getElem h]

theorem getD_mem_of_lt (l : List Nat) (k : Nat) (h : k < l.length) :
    l.getD k 0 ∈ l := by
  have : l.getD k 0 = l[k] := by
    simp [List.getD_eq_getElem?_getD, List.getElem?_eq_getElem h]
  rw [this]
  exact List.getElem_mem h

/-! ### Bit-arithmetic bridges: the source masks with `& maxOffset` where
`maxOffset = 8 - depth`; for the legal sub-byte depths this is the residue
mod 8 of the bit position. -/

theorem and_seven_eq_mod (x : Nat) : x &&& 7 = x % 8 := by
  have h := Nat.and_pow_two_sub_one_eq_mod x 3
  norm_num at h
  exact h

theorem mul_two_and_six (m : Nat) : (m * 2) &&& 6 = m % 4 * 2 := by
  have h7 : (m * 2) &&& 7 = m % 4 * 2 := by rw [and_seven_eq_mod]; omega
  have h1 : (m * 2) &&& 1 = 0 := by rw [Nat.and_one_is_mod]; omega
  have hsplit : (m * 2) &&& 7 = ((m * 2) &&& 6) ||| ((m * 2) &&& 1) := by
    rw [show (7 : Nat) = 6 ||| 1 from by decide, Nat.and_or_distrib_left]
  rw [h1, Nat.or_zero] at hsplit
  rw [← hsplit, h7]

theorem mul_four_and_four (m : Nat) : (m * 4) &&& 4 = m % 2 * 4 := by
  have h7 : (m * 4) &&& 7 = m % 2 * 4 := by rw [and_seven_eq_mod]; omega
  have h3 : (m * 4) &&& 3 = 0 := by
    have h := Nat.and_pow_two_sub_one_eq_mod (m * 4) 2
    norm_num at h
    omega
  have hsplit : (m * 4) &&& 7 = ((m * 4) &&& 4) ||| ((m * 4) &&& 3) := by
    rw [show (7 : Nat) = 4 ||| 3 from by decide, Nat.and_or_distrib_left]
  rw [h3, Nat.or_zero] at hsplit
  rw [← hsplit, h7]

/-! ### Extraction of one packed sample group from an output byte -/

theorem packValue_lt (bytes : List Nat) (d : Nat) (nm : Bool) (idx : Nat) :
    packValue bytes d nm idx < 2 ^ d := by
  unfold packValue
  rw [Nat.and_pow_two_sub_one_eq_mod]
  exact Nat.mod_lt _ (Nat.pow_pos (by norm_num))

theorem packFold_extract_one (s : List Nat) (i r : Nat) (hr : r < 8) :
    (packFold s 1 false i >>> (7 - r)) % 2 = packValue s 1 false (i * 8 + r) := by
  have h8 : List.range (8 / 1) = [0, 1, 2, 3, 4, 5, 6, 7] := by decide
  unfold packFold
  rw [h8]
  simp only [List.foldl]
  have hcase : r = 0 ∨ r = 1 ∨ r = 2 ∨ r = 3 ∨ r = 4 ∨ r = 5 ∨ r = 6 ∨ r = 7 := by
    omega
  have hb0 := packValue_lt s 1 false (i * (8 / 1) + 0)
  have hb1 := packValue_lt s 1 false (i * (8 / 1) + 1)
  have hb2 := packValue_lt s 1 false (i * (8 / 1) + 2)
  have hb3 := packValue_lt s 1 false (i * (8 / 1) + 3)
  have hb4 := packValue_lt s 1 false (i * (8 / 1) + 4)
  have hb5 := packValue_lt s 1 false (i * (8 / 1) + 5)
  have hb6 := packValue_lt s 1 false (i * (8 / 1) + 6)
  have hb7 := packValue_lt s 1 false (i * (8 / 1) + 7)
  rcases hcase with h | h | h | h | h | h | h | h <;> subst h <;>
    norm_num at hb0 hb1 hb2 hb3 hb4 hb5 hb6 hb7 ⊢ <;>
    generalize packValue s 1 false (i * 8) = w0 at * <;>
    generalize packValue s 1 false (i * 8 + 1) = w1 at * <;>
    generalize packValue s 1 false (i * 8 + 2) = w2 at * <;>
    generalize packValue s 1 false (i * 8 + 3) = w3 at * <;>
    generalize packValue s 1 false (i * 8 + 4) = w4 at * <;>
    generalize packValue s 1 false (i * 8 + 5) = w5 at * <;>
    generalize packValue s 1 false (i * 8 + 6) = w6 at * <;>
    generalize packValue s 1 false (i * 8 + 7) = w7 at * <;>
    revert hb7 <;> revert w7 <;> revert hb6 <;> revert w6 <;>
    revert hb5 <;> revert w5 <;> revert hb4 <;> revert w4 <;>
    revert hb3 <;> revert w3 <;> revert hb2 <;> revert w2 <;>
    revert hb1 <;> revert w1 <;> revert hb0 <;> revert w0 <;>
    decide

theorem packFold_extract_two (s : List Nat) (i r : Nat) (hr : r < 4) :
    (packFold s 2 false i >>> (6 - r * 2)) % 4 = packValue s 2 false (i * 4 + r) := by
  have h4 : List.range (8 / 2) = [0, 1, 2, 3] := by decide
  unfold packFold
  rw [h4]
  simp only [List.foldl]
  have hcase : r = 0 ∨ r = 1 ∨ r = 2 ∨ r = 3 := by omega
  have hb0 := packValue_lt s 2 false (i * (8 / 2) + 0)
  have hb1 := packValue_lt s 2 false (i * (8 / 2) + 1)
  have hb2 := packValue_lt s 2 false (i * (8 / 2) + 2)
  have hb3 := packValue_lt s 2 false (i * (8 / 2) + 3)
  rcases hcase with h | h | h | h <;> subst h <;>
    norm_num at hb0 hb1 hb2 hb3 ⊢ <;>
    generalize packValue s 2 false (i * 4) = w0 at * <;>
    generalize packValue s 2 false (i * 4 + 1) = w1 at * <;>
    generalize packValue s 2 false (i * 4 + 2) = w2 at * <;>
    generalize packValue s 2 false (i * 4 + 3) = w3 at * <;>
    revert hb3 <;> revert w3 <;> revert hb2 <;> revert w2 <;>
    revert hb1 <;> revert w1 <;> revert hb0 <;> revert w0 <;>
    decide

theorem packFold_extract_four (s : List Nat) (i r : Nat) (hr : r < 2) :
    (packFold s 4 false i >>> (4 - r * 4)) % 16 = packValue s 4 false (i * 2 + r) := by
  have h2 : List.range (8 / 4) = [0, 1] := by decide
  unfold packFold
  rw [h2]
  simp only [List.foldl]
  have hcase : r = 0 ∨ r = 1 := by omega
  have hb0 := packValue_lt s 4 false (i * (8 / 4) + 0)
  have hb1 := packValue_lt s 4 false (i * (8 / 4) + 1)
  rcases hcase with h | h <;> subst h <;>
    norm_num at hb0 hb1 ⊢ <;>
    generalize packValue s 4 false (i * 2) = w0 at * <;>
    generalize packValue s 4 false (i * 2 + 1) = w1 at * <;>
    revert hb1 <;> revert w1 <;> revert hb0 <;> revert w0 <;>
    decide

theorem unpack_pack_one (s : List Nat) (hv : ∀ v ∈ s, v < 2) (hdvd : 8 ∣ s.length) :
    unpackBits (packBits s 1 false) 1 false = s := by
  obtain ⟨P, hP⟩ := hdvd
  have hplen : (packBits s 1 false).length = P := by
    simp [packBits]
    omega
  have hu : unpackBits (packBits s 1 false) 1 false
      = (List.range ((packBits s 1 false).length * 8 / 1)).map
        (unpackValue (packBits s 1 false) 1 false) := by
    simp [unpackBits]
  apply List.ext_getElem?
  intro k
  rw [hu, getElem?_map_range, hplen]
  by_cases hk : k < s.length
  · rw [if_pos (by omega : k < P * 8 / 1)]
    rw [getElem?_eq_some_getD s k hk]
    congr 1
    unfold unpackValue
    rw [Nat.and_pow_two_sub_one_eq_mod]
    norm_num [and_seven_eq_mod]
    simp only [← List.getD_eq_getElem?_getD]
    have hpg : (packBits s 1 false).getD (k / 8) 0 = packFold s 1 false (k / 8) := by
      simp only [packBits, if_pos (by norm_num : (1 : Nat) < 8)]
      exact getD_map_range _ _ _ (by omega)
    rw [hpg]
    have he := packFold_extract_one s (k / 8) (k % 8) (by omega)
    rw [show k / 8 * 8 + k % 8 = k from by omega] at he
    rw [he]
    unfold packValue
    rw [Nat.and_pow_two_sub_one_eq_mod]
    norm_num
    simp only [← List.getD_eq_getElem?_getD]
    exact hv _ (getD_mem_of_lt s k hk)
  · rw [if_neg (by omega : ¬ k < P * 8 / 1)]
    rw [List.getElem?_eq_none (by omega)]

theorem unpack_pack_two (s : List Nat) (hv : ∀ v ∈ s, v < 4) (hdvd : 4 ∣ s.length) :
    unpackBits (packBits s 2 false) 2 false = s := by
  obtain ⟨P, hP⟩ := hdvd
  have hplen : (packBits s 2 false).length = P := by
    simp [packBits]
    omega
  have hu : unpackBits (packBits s 2 false) 2 false
      = (List.range ((packBits s 2 false).length * 8 / 2)).map
        (unpackValue (packBits s 2 false) 2 false) := by
    simp [unpackBits]
  apply List.ext_getElem?
  intro k
  rw [hu, getElem?_map_range, hplen]
  by_cases hk : k < s.length
  · rw [if_pos (by omega : k < P * 8 / 2)]
    rw [getElem?_eq_some_getD s k hk]
    congr 1
    unfold unpackValue
    rw [Nat.and_pow_two_sub_one_eq_mod]
    norm_num [mul_two_and_six]
    simp only [← List.getD_eq_getElem?_getD]
    have hidx : k * 2 / 8 = k / 4 := by omega
    rw [hidx]
    have hpg : (packBits s 2 false).getD (k / 4) 0 = packFold s 2 false (k / 4) := by
      simp only [packBits, if_pos (by norm_num : (2 : Nat) < 8)]
      exact getD_map_range _ _ _ (by omega)
    rw [hpg]
    have he := packFold_extract_two s (k / 4) (k % 4) (by omega)
    rw [show k / 4 * 4 + k % 4 = k from by omega] at he
    rw [he]
    unfold packValue
    rw [Nat.and_pow_two_sub_one_eq_mod]
    norm_num
    simp only [← List.getD_eq_getElem?_getD]
    exact hv _ (getD_mem_of_lt s k hk)
  · rw [if_neg (by omega : ¬ k < P * 8 / 2)]
    rw [List.getElem?_eq_none (by omega)]

theorem unpack_pack_four (s : List Nat) (hv : ∀ v ∈ s, v < 16) (hdvd : 2 ∣ s.length) :
    unpackBits (packBits s 4 false) 4 false = s := by
  obtain ⟨P, hP⟩ := hdvd
  have hplen : (packBits s 4 false).length = P := by
    simp [packBits]
    omega
  have hu : unpackBits (packBits s 4 false) 4 false
      = (List.range ((packBits s 4 false).length * 8 / 4)).map
        (unpackValue (packBits s 4 false) 4 false) := by
    simp [unpackBits]
  apply List.ext_getElem?
  intro k
  rw [hu, getElem?_map_range, hplen]
  by_cases hk : k < s.length
  · rw [if_pos (by omega : k < P * 8 / 4)]
    rw [getElem?_eq_some_getD s k hk]
    congr 1
    unfold unpackValue
    rw [Nat.and_pow_two_sub_one_eq_mod]
    norm_num [mul_four_and_four]
    simp only [← List.getD_eq_getElem?_getD]
    have hidx : k * 4 / 8 = k / 2 := by omega
    rw [hidx]
    have hpg : (packBits s 4 false).getD (k / 2) 0 = packFold s 4 false (k / 2) := by
      simp only [packBits, if_pos (by norm_num : (4 : Nat) < 8)]
      exact getD_map_range _ _ _ (by omega)
    rw [hpg]
    have he := packFold_extract_four s (k / 2) (k % 2) (by omega)
    rw [show k / 2 * 2 + k % 2 = k from by omega] at he
    rw [he]
    unfold packValue
    rw [Nat.and_pow_two_sub_one_eq_mod]
    norm_num
    simp only [← List.getD_eq_getElem?_getD]
    exact hv _ (getD_mem_of_lt s k hk)
  · rw [if_neg (by omega : ¬ k < P * 8 / 4)]
    rw [List.getElem?_eq_none (by omega)]

/-- C7 counterexample: the claim quantifies over every sample array with
in-range values, but a sample count that does not fill a whole byte is
truncated by the `Uint8Array((bytes.length * depth) / 8)` allocation, so
`[1]` at depth 1 packs to the empty array and does not round-trip. -/
theorem unpackBits_packBits_unaligned_counterexample :
    (∀ v ∈ [1], v < 2 ^ 1) ∧ unpackBits (packBits [1] 1 false) 1 false ≠ [1] := by
  decide

/-- C7 (amended): for every depth in {1,2,4,8} and every sample array whose
values lie in `[0, 2^depth)` and whose length is a multiple of the
`8/depth` samples per output byte, `unpackBits (packBits samples depth
false) depth false` equals the original samples; moreover packing
`[1,0,1,0,0,1,0,1]` at depth 1 with normalise false yields `[165]`, and
unpacking `[165]` at depth 1 with normalise true yields
`[255,0,255,0,0,255,0,255]`. -/
theorem unpackBits_packBits_roundtrip :
    (∀ d s, (d = 1 ∨ d = 2 ∨ d = 4 ∨ d = 8) → (∀ v ∈ s, v < 2 ^ d) →
      (8 / d) ∣ s.length → unpackBits (packBits s d false) d false = s)
      ∧ packBits [1, 0, 1, 0, 0, 1, 0, 1] 1 false = [165]
      ∧ unpackBits [165] 1 true = [255, 0, 255, 0, 0, 255, 0, 255] := by
  refine ⟨?_, by decide, by decide⟩
  rintro d s (rfl | rfl | rfl | rfl) hv hdvd
  · exact unpack_pack_one s (by norm_num at hv; exact hv)
      (by norm_num at hdvd; exact hdvd)
  · exact unpack_pack_two s (by norm_num at hv; exact hv)
      (by norm_num at hdvd; exact hdvd)
  · exact unpack_pack_four s (by norm_num at hv; exact hv)
      (by norm_num at hdvd; exact hdvd)
  · simp [packBits, unpackBits]

/-- Witness for `unpackBits_packBits_roundtrip` at a concrete depth-2
sample array. -/
theorem unpackBits_packBits_roundtrip_witness :
    unpackBits (packBits [3, 0, 2, 1] 2 false) 2 false = [3, 0, 2, 1] :=
  unpackBits_packBits_roundtrip.1 2 [3, 0, 2, 1] (by norm_num) (by decide)
    (by decide)

/-! ## Structure of the `canBeX` validator loops -/

/-- Every four-byte block that passes the `canBeGrayScale` check has alpha
255, so the `canBeRGB` loop accepts it; a `canBeGrayScale`-accepted buffer
has no partial final block (a partial block fails its comparisons). -/
theorem canBeGrayScaleGo_imp_canBeRGBGo :
    ∀ l : List Nat, canBeGrayScaleGo l = true → canBeRGBGo l = true
  | [], _ => rfl
  | [_], h => by simp [canBeGrayScaleGo] at h
  | [_, _], h => by simp [canBeGrayScaleGo] at h
  | [_, _, _], h => by simp [canBeGrayScaleGo] at h
  | _ :: _ :: _ :: _ :: rest, h => by
    simp only [canBeGrayScaleGo, Bool.and_eq_true, beq_iff_eq] at h
    simp only [canBeRGBGo, Bool.and_eq_true, beq_iff_eq]
    exact ⟨h.1.2, canBeGrayScaleGo_imp_canBeRGBGo rest h.2⟩

/-- C9 counterexample: `canBeRGB` inspects only alpha bytes and says nothing
about the dimensions, so an image whose buffer is shorter than
`width*height*4` can satisfy `canBeRGB` while failing `canBeRGBA`. -/
theorem canBeRGB_not_canBeRGBA_counterexample :
    canBeRGB [1, 2, 3, 255] = true ∧ canBeRGBA [1, 2, 3, 255] 2 2 = false := by
  decide

/-- C9 (amended): `canBeGrayScale ⇒ canBeRGB` and `canBeIndexed ⇒ canBeRGB`
hold for every buffer; `canBeRGB ⇒ canBeRGBA` holds for buffers of the
RGBA shape `width*height*4` (the unrestricted implication fails, see the
counterexample); an opaque image with 257 distinct 24-bit colors is not
indexable and one with 256 distinct colors is. -/
theorem canBeX_partition_amended :
    (∀ raw : List Nat, canBeGrayScale raw = true → canBeRGB raw = true)
    ∧ (∀ (raw : List Nat) (w h : Nat), raw.length = w * h * 4 →
        canBeRGB raw = true → canBeRGBA raw w h = true)
    ∧ (∀ raw : List Nat, canBeIndexed raw = true → canBeRGB raw = true)
    ∧ (∀ raw : List Nat, canBeRGB raw = true → (paletteKeys raw).length = 257 →
        canBeIndexed raw = false)
    ∧ (∀ raw : List Nat, canBeRGB raw = true → (paletteKeys raw).length = 256 →
        canBeIndexed raw = true) := by
  refine ⟨?_, ?_, ?_, ?_, ?_⟩
  · intro raw hgs
    exact canBeGrayScaleGo_imp_canBeRGBGo raw hgs
  · intro raw w h hlen _
    rw [canBeRGBA, beq_iff_eq]
    omega
  · intro raw hidx
    rw [canBeIndexed] at hidx
    by_cases hc : canBeRGB raw = true
    · exact hc
    · rw [Bool.not_eq_true] at hc
      rw [hc] at hidx
      simp at hidx
  · intro raw _ hkeys
    rw [canBeIndexed]
    cases hc : canBeRGB raw <;> simp [hkeys]
  · intro raw hrgb hkeys
    rw [canBeIndexed, hrgb]
    simp [hkeys]

/-- Witness for `canBeX_partition_amended` at concrete buffers. -/
theorem canBeX_partition_amended_witness :
    canBeRGB [5, 5, 5, 255] = true ∧ canBeRGBA [1, 2, 3, 255] 1 1 = true :=
  ⟨canBeX_partition_amended.1 [5, 5, 5, 255] (by decide),
    canBeX_partition_amended.2.1 [1, 2, 3, 255] 1 1 (by decide) (by decide)⟩

/-- C8: `isCorrectFormat` evaluated at the failing input.  An `Indexed`
result with a one-entry palette (3 bytes) and the index 1 — which
references no palette entry, since `1 ≥ palette.length / 3` — nevertheless
passes, because the source compares the maximum index against the palette
byte count `palette.length` instead of the entry count `palette.length/3`. -/
theorem isCorrectFormat_palette_byte_length_bug :
    isCorrectFormat ⟨[1], 1, 1, 8, .Indexed, some [10, 10, 10], none, none⟩ = true
      ∧ ¬ (1 < ([10, 10, 10] : List Nat).length / 3) := by
  decide

/-! ## Byte-level primitives shared by the codecs -/

/-- Big-endian 4-byte encoding of a 32-bit value (`DataView.setUint32`
wraps modulo `2^32`). -/
def be32 (n : Nat) : List Nat :=
  [n / 2 ^ 24 % 256, n / 2 ^ 16 % 256, n / 2 ^ 8 % 256, n % 256]

/-- Big-endian read of the first four bytes of a list
(`DataView.getUint32`); the bounds check that makes the `DataView` throw is
performed by the callers, as in the source. -/
def readU32 (l : List Nat) : Nat :=
  l.getD 0 0 * 2 ^ 24 + l.getD 1 0 * 2 ^ 16 + l.getD 2 0 * 2 ^ 8 + l.getD 3 0

@[simp] theorem length_be32 (n : Nat) : (be32 n).length = 4 := rfl

theorem readU32_be32 (n : Nat) (t : List Nat) (h : n < 2 ^ 32) :
    readU32 (be32 n ++ t) = n := by
  simp [readU32, be32]
  omega

/-- The 8-byte PNG signature `89 50 4E 47 0D 0A 1A 0A`. -/
def pngSignature : List Nat := [137, 80, 78, 71, 13, 10, 26, 10]

def tyIHDR : List Nat := [73, 72, 68, 82]

def tyPLTE : List Nat := [80, 76, 84, 69]

def tytRNS : List Nat := [116, 82, 78, 83]

def tyIDAT : List Nat := [73, 68, 65, 84]

def tygAMA : List Nat := [103, 65, 77, 65]

def tyIEND : List Nat := [73, 69, 78, 68]

/-! ## The PNG chunk decoder (`binary/decode.ts`)

The source walks the chunk stream with an absolute `offset` into `image`;
the model walks the suffix `rem = image.drop offset`, which carries the
same information (`offset = image.length - rem.length`).  `DataView` reads
past the end throw a `RangeError`; typed-array reads past the end yield
`undefined`, so a truncated IHDR makes `compression !== 0` (und so weiter)
true and raises the corresponding "Unsupported ..." error, which the model
expresses as the length guards disjoined with the byte tests. -/

/-- Error messages of `decode.ts`. -/
def sigErr : String := "PNG signature is invalid..."

def oobErr : String := "RangeError: Offset is outside the bounds of the DataView"

def compErr : String := "Unsupported compression method"

def filterMethodErr : String := "Unsupported filter method"

def interlaceErr : String := "Interlaced PNG not supported"

def lengthErr (expected got : String) : String :=
  "Unexpected decompressed length. Expected " ++ expected ++ ", got " ++ got

def filterTypeErr (f : Nat) : String := "Unknown filter type: " ++ toString f

/-- The mutable locals of the chunk-walk loop in `decode`. -/
structure ChunkState where
  width : Nat := 0
  height : Nat := 0
  bitDepth : Nat := 8
  colorFormat : Option ColorFormat := some .RGBA
  palette : Option (List Nat) := none
  trns : Option (List Nat) := none
  gamma : Option Nat := none
  idat : List (List Nat) := []
deriving Repr, DecidableEq

/-- Fuel exhaustion sentinel.  The chunk loop consumes at least 12 bytes of
the suffix per iteration, so with fuel `rem.length + 1` this branch is
unreachable; it only makes the recursion structural (kernel-computable). -/
def fuelErr : String := "unreachable: chunk walk fuel exhausted"

/-- The `while (offset < image.length)` chunk loop of `decode`, on the
remaining suffix.  `gamma` keeps the unsigned 4-byte value; the source's
`|`-composed Int32 (negative for a first byte ≥ 128) divided by 100000
differs only by that constant reinterpretation, which no claim observes. -/
def chunkWalk : Nat → List Nat → ChunkState → Except String ChunkState
  | 0, _, _ => .error fuelErr
  | _fuel + 1, rem, st =>
  if rem = [] then .ok st
  else if rem.length < 4 then .error oobErr
  else
    let len := readU32 rem
    let ty := (rem.drop 4).take 4
    let chunkData := (rem.drop 8).take len
    if ty = tyIHDR then
      if rem.length < 12 then .error oobErr
      else if rem.length < 16 then .error oobErr
      else
        let w := readU32 (rem.drop 8)
        let hgt := readU32 (rem.drop 12)
        let bd := rem.getD 16 0
        let cf := colorFormatNumbersRev (rem.getD 17 0)
        if rem.length ≤ 18 ∨ rem.getD 18 0 ≠ 0 then .error compErr
        else if rem.length ≤ 19 ∨ rem.getD 19 0 ≠ 0 then .error filterMethodErr
        else if rem.length ≤ 20 ∨ rem.getD 20 0 ≠ 0 then .error interlaceErr
        else chunkWalk _fuel (rem.drop (8 + len + 4))
          { st with width := w, height := hgt, bitDepth := bd, colorFormat := cf }
    else if ty = tyPLTE then
      chunkWalk _fuel (rem.drop (8 + len + 4)) { st with palette := some chunkData }
    else if ty = tytRNS then
      chunkWalk _fuel (rem.drop (8 + len + 4)) { st with trns := some chunkData }
    else if ty = tyIDAT then
      chunkWalk _fuel (rem.drop (8 + len + 4)) { st with idat := st.idat ++ [chunkData] }
    else if ty = tygAMA then
      chunkWalk _fuel (rem.drop (8 + len + 4)) { st with gamma := some (readU32 chunkData) }
    else if ty = tyIEND then .ok st
    else chunkWalk _fuel (rem.drop (8 + len + 4)) st

/-- `paethPredictor` of `decode.ts`: `p = a + b - c` over the integers,
absolute differences, then the a/b/c choice. -/
def paethPredictor (a b c : Nat) : Nat :=
  let p : Int := (a : Int) + b - c
  let pa := (p - a).natAbs
  let pb := (p - b).natAbs
  let pc := (p - c).natAbs
  if pa ≤ pb ∧ pa ≤ pc then a
  else if pb ≤ pc then b
  else c

/-- The per-byte reconstruction loop (`for x in 0..rowLength`) of `decode`:
`curr` is the reconstructed prefix of the current row, `x` its length.
Neighbor reads out of bounds are 0, as in the source (`x >= bpp ? ... : 0`,
`prev[x] ?? 0`).  An unknown filter byte raises — note the source only
checks the filter inside the loop, so a zero-length row never raises. -/
def reconAux (filter : Nat) (prev : List Nat) (bpp : Nat) :
    List Nat → Nat → List Nat → Except String (List Nat)
  | [], _, curr => .ok curr
  | rawByte :: rest, x, curr =>
    let left := if bpp ≤ x then curr.getD (x - bpp) 0 else 0
    let up := prev.getD x 0
    let upLeft := if bpp ≤ x then prev.getD (x - bpp) 0 else 0
    match filter with
    | 0 => reconAux filter prev bpp rest (x + 1) (curr ++ [rawByte])
    | 1 => reconAux filter prev bpp rest (x + 1) (curr ++ [(rawByte + left) % 256])
    | 2 => reconAux filter prev bpp rest (x + 1) (curr ++ [(rawByte + up) % 256])
    | 3 => reconAux filter prev bpp rest (x + 1)
        (curr ++ [(rawByte + (left + up) / 2) % 256])
    | 4 => reconAux filter prev bpp rest (x + 1)
        (curr ++ [(rawByte + paethPredictor left up upLeft) % 256])
    | _ => .error (filterTypeErr filter)

/-- One scanline: read the filter byte, reconstruct `rowLength` bytes. -/
def reconRow (filter : Nat) (scanline prev : List Nat) (bpp : Nat) :
    Except String (List Nat) :=
  reconAux filter prev bpp scanline 0 []

/-- The `for y in 0..height` defiltering loop of `decode`, on the remaining
decompressed bytes; the caller has checked
`decompressed.length = height * (1 + rowLength)`. -/
def defilterAll (bytes : List Nat) (rowLength bpp : Nat) :
    Nat → List Nat → Except String (List Nat)
  | 0, _ => .ok []
  | n + 1, prev =>
    let filter := bytes.getD 0 0
    let scanline := (bytes.drop 1).take rowLength
    match reconRow filter scanline prev bpp with
    | .error e => .error e
    | .ok curr =>
      match defilterAll (bytes.drop (1 + rowLength)) rowLength bpp n curr with
      | .error e => .error e
      | .ok rest => .ok (curr ++ rest)

/-- `decode` of `binary/decode.ts`, with the platform inflate primitive as
a parameter (`DecompressionStream` failures are its `.error` results). -/
def decode (inflate : List Nat → Except String (List Nat)) (image : List Nat) :
    Except String DecodeResult :=
  if image.take 8 ≠ pngSignature then .error sigErr
  else
    match chunkWalk ((image.drop 8).length + 1) (image.drop 8) {} with
    | .error e => .error e
    | .ok st =>
      let compressedData := st.idat.flatten
      match inflate compressedData with
      | .error e => .error e
      | .ok decompressed =>
        match st.colorFormat with
        | none => .error (lengthErr "NaN" (toString decompressed.length))
        | some colorFormat =>
          let bitsPerPixel := st.bitDepth * colorFormatChannels colorFormat
          let bitsPerRow := bitsPerPixel * st.width
          let rowLength := (bitsPerRow + 7) / 8
          let expectedLength := st.height * (1 + rowLength)
          if decompressed.length ≠ expectedLength then
            .error (lengthErr (toString expectedLength) (toString decompressed.length))
          else
            let bpp := (st.bitDepth * colorFormatChannels colorFormat + 7) / 8
            match defilterAll decompressed rowLength bpp st.height
                (List.replicate rowLength 0) with
            | .error e => .error e
            | .ok raw =>
              if colorFormat = .Indexed then
                .ok { raw := raw, width := st.width, height := st.height,
                      bitDepth := st.bitDepth, colorFormat := colorFormat,
                      palette := some (st.palette.getD []), trns := st.trns,
                      gamma := st.gamma }
              else
                .ok { raw := raw, width := st.width, height := st.height,
                      bitDepth := st.bitDepth, colorFormat := colorFormat,
                      palette := none, trns := st.trns, gamma := st.gamma }

/-! ## The PNG chunk encoder (`binary/encode.ts`) -/

/-- `EncodeOpts` of `types.ts`; `palette` is present only for `Indexed`
(the TypeScript union makes it mandatory there, optional otherwise). -/
structure EncodeOpts where
  raw : List Nat
  width : Nat
  height : Nat
  bitDepth : Nat
  colorFormat : ColorFormat
  palette : Option (List Nat) := none
deriving Repr

/-- `writeChunk`: length, type, data, then the CRC32 of type+data.  The
CRC32 primitive is a parameter; `setUint32` wraps its value mod `2^32`,
which `be32` performs. -/
def writeChunk (crc : List Nat → Nat) (ty data : List Nat) : List Nat :=
  be32 data.length ++ ty ++ data ++ be32 (crc (ty ++ data))

/-- `writeIHDR`: 13-byte header chunk. -/
def writeIHDR (crc : List Nat → Nat) (width height bitDepth : Nat)
    (colorFormat : ColorFormat) : List Nat :=
  writeChunk crc tyIHDR
    (be32 width ++ be32 height
      ++ [bitDepth % 256, colorFormatNumbers colorFormat, 0, 0, 0])

/-- The filter-byte-prefixed scanlines of `encode` (always filter 0). -/
def scanlinesOf (raw : List Nat) (bytesPerRow height : Nat) : List Nat :=
  (List.range height).flatMap fun y =>
    0 :: (raw.drop (y * bytesPerRow)).take bytesPerRow

/-- `encode` of `binary/encode.ts`, with deflate and CRC32 as parameters. -/
def encode (deflate : List Nat → List Nat) (crc : List Nat → Nat)
    (opts : EncodeOpts) : Except String (List Nat) :=
  let bitsPerPixel := colorFormatChannels opts.colorFormat * opts.bitDepth
  let bytesPerRow := (opts.width * bitsPerPixel + 7) / 8
  let expectedSize := bytesPerRow * opts.height
  if opts.bitDepth < 8 ∧ opts.colorFormat ≠ .GrayScale
      ∧ opts.colorFormat ≠ .Indexed then
    .error "Bit depths < 8 only allowed for grayscale or indexed color"
  else if opts.raw.length ≠ expectedSize then
    .error "Pixel data size mismatch"
  else
    let ihdr := writeIHDR crc opts.width opts.height opts.bitDepth opts.colorFormat
    let idat := writeChunk crc tyIDAT
      (deflate (scanlinesOf opts.raw bytesPerRow opts.height))
    let iend := writeChunk crc tyIEND []
    if opts.colorFormat = .Indexed then
      match opts.palette with
      | none => .error "Palette required for indexed color"
      | some p =>
        .ok (pngSignature ++ writeIHDR crc opts.width opts.height opts.bitDepth
            opts.colorFormat ++ writeChunk crc tyPLTE p ++ idat ++ iend)
    else
      .ok (pngSignature ++ ihdr ++ idat ++ iend)

/-! ## Stepping lemmas for the chunk walk on well-framed chunks -/

theorem getD_eq_getD_drop (l : List Nat) (i : Nat) :
    l.getD i 0 = (l.drop i).getD 0 0 := by
  simp [List.getD_eq_getElem?_getD, List.getElem?_drop]

@[simp] theorem length_writeChunk (crc : List Nat → Nat) (ty data : List Nat) :
    (writeChunk crc ty data).length = 8 + ty.length + data.length := by
  simp [writeChunk]
  omega

/-- All the reads the chunk loop performs on a well-framed first chunk. -/
theorem chunk_reads (ty data : List Nat) (crcv : Nat) (rest : List Nat)
    (hty4 : ty.length = 4) (hdata : data.length < 2 ^ 32) :
    readU32 (be32 data.length ++ (ty ++ (data ++ (be32 crcv ++ rest)))) = data.length
    ∧ ((be32 data.length ++ (ty ++ (data ++ (be32 crcv ++ rest)))).drop 4).take 4 = ty
    ∧ ((be32 data.length ++ (ty ++ (data ++ (be32 crcv ++ rest)))).drop 8).take data.length
        = data
    ∧ (be32 data.length ++ (ty ++ (data ++ (be32 crcv ++ rest)))).drop
        (8 + data.length + 4) = rest
    ∧ (be32 data.length ++ (ty ++ (data ++ (be32 crcv ++ rest)))).length
        = 12 + data.length + rest.length := by
  have hd4 : (be32 data.length ++ (ty ++ (data ++ (be32 crcv ++ rest)))).drop 4
      = ty ++ (data ++ (be32 crcv ++ rest)) := List.drop_left' (length_be32 _)
  have hd8 : (be32 data.length ++ (ty ++ (data ++ (be32 crcv ++ rest)))).drop 8
      = data ++ (be32 crcv ++ rest) := by
    rw [show (8 : Nat) = 4 + 4 from rfl, ← List.drop_drop, hd4]
    exact List.drop_left' hty4
  refine ⟨readU32_be32 _ _ hdata, ?_, ?_, ?_, ?_⟩
  · rw [hd4]
    exact List.take_left' hty4
  · rw [hd8]
    exact List.take_left' rfl
  · rw [show 8 + data.length + 4 = 8 + (data.length + 4) from by omega,
      ← List.drop_drop, hd8, ← List.drop_drop, List.drop_left' rfl]
    exact List.drop_left' (length_be32 _)
  · simp [be32, hty4]
    omega

theorem chunkWalk_PLTE (fuel : Nat) (crc : List Nat → Nat) (p rest : List Nat)
    (st : ChunkState) (hp : p.length < 2 ^ 32) :
    chunkWalk (fuel + 1) (writeChunk crc tyPLTE p ++ rest) st
      = chunkWalk fuel rest { st with palette := some p } := by
  have h := chunk_reads tyPLTE p (crc (tyPLTE ++ p)) rest rfl hp
  obtain ⟨hread, hty, hdata, hdrop, hlen⟩ := h
  rw [writeChunk]
  simp only [List.append_assoc]
  rw [chunkWalk]
  rw [if_neg (by intro hemp; rw [hemp] at hlen; simp only [List.length_nil] at hlen; omega)]
  rw [if_neg (by rw [hlen]; omega)]
  simp only [hread, hty, hdata, hdrop]
  norm_num [tyPLTE, tyIHDR]

theorem chunkWalk_IDAT (fuel : Nat) (crc : List Nat → Nat) (d rest : List Nat)
    (st : ChunkState) (hd : d.length < 2 ^ 32) :
    chunkWalk (fuel + 1) (writeChunk crc tyIDAT d ++ rest) st
      = chunkWalk fuel rest { st with idat := st.idat ++ [d] } := by
  have h := chunk_reads tyIDAT d (crc (tyIDAT ++ d)) rest rfl hd
  obtain ⟨hread, hty, hdata, hdrop, hlen⟩ := h
  rw [writeChunk]
  simp only [List.append_assoc]
  rw [chunkWalk]
  rw [if_neg (by intro hemp; rw [hemp] at hlen; simp only [List.length_nil] at hlen; omega)]
  rw [if_neg (by rw [hlen]; omega)]
  simp only [hread, hty, hdata, hdrop]
  norm_num [tyIDAT, tyIHDR, tyPLTE, tytRNS]

theorem chunkWalk_IEND (fuel : Nat) (crc : List Nat → Nat) (rest : List Nat)
    (st : ChunkState) :
    chunkWalk (fuel + 1) (writeChunk crc tyIEND [] ++ rest) st = .ok st := by
  have h := chunk_reads tyIEND [] (crc (tyIEND ++ [])) rest rfl (by norm_num)
  obtain ⟨hread, hty, hdata, hdrop, hlen⟩ := h
  rw [writeChunk]
  simp only [List.append_assoc]
  rw [chunkWalk]
  rw [if_neg (by intro hemp; rw [hemp] at hlen; simp only [List.length_nil] at hlen; omega)]
  rw [if_neg (by rw [hlen]; omega)]
  simp only [hread, hty, hdata, hdrop]
  norm_num [tyIEND, tyIHDR, tyPLTE, tytRNS, tyIDAT, tygAMA]

theorem chunkWalk_IEND_nil (fuel : Nat) (crc : List Nat → Nat)
    (st : ChunkState) :
    chunkWalk (fuel + 1) (writeChunk crc tyIEND []) st = .ok st := by
  have h := chunkWalk_IEND fuel crc [] st
  rw [List.append_nil] at h
  exact h

theorem chunkWalk_IHDR_step (fuel : Nat) (rem rest : List Nat)
    (st : ChunkState) (w hgt d ctn cm fm il : Nat)
    (hne : rem ≠ []) (hlen : 21 ≤ rem.length)
    (hread : readU32 rem = 13)
    (hty : (rem.drop 4).take 4 = tyIHDR)
    (hw : readU32 (rem.drop 8) = w)
    (hh : readU32 (rem.drop 12) = hgt)
    (h16 : rem.getD 16 0 = d) (h17 : rem.getD 17 0 = ctn)
    (h18 : rem.getD 18 0 = cm) (h19 : rem.getD 19 0 = fm)
    (h20 : rem.getD 20 0 = il)
    (hdrop : rem.drop 25 = rest) :
    chunkWalk (fuel + 1) rem st
      = if cm ≠ 0 then .error compErr
        else if fm ≠ 0 then .error filterMethodErr
        else if il ≠ 0 then .error interlaceErr
        else chunkWalk fuel rest
          { st with
              width := w
              height := hgt
              bitDepth := d
              colorFormat := colorFormatNumbersRev ctn } := by
  rw [chunkWalk]
  rw [if_neg hne]
  rw [if_neg (show ¬ rem.length < 4 by omega)]
  simp only [hty, hread, hw, hh, h16, h17, h18, h19, h20]
  simp only [if_true]
  rw [if_neg (show ¬ rem.length < 12 by omega)]
  rw [if_neg (show ¬ rem.length < 16 by omega)]
  have hc18 : (rem.length ≤ 18 ∨ cm ≠ 0) = (cm ≠ 0) := by
    simp [show ¬ rem.length ≤ 18 by omega]
  have hc19 : (rem.length ≤ 19 ∨ fm ≠ 0) = (fm ≠ 0) := by
    simp [show ¬ rem.length ≤ 19 by omega]
  have hc20 : (rem.length ≤ 20 ∨ il ≠ 0) = (il ≠ 0) := by
    simp [show ¬ rem.length ≤ 20 by omega]
  simp only [hc18, hc19, hc20]
  rw [show (8 + 13 + 4 : Nat) = 25 from rfl, hdrop]

/-- The chunk walk on the encoder-shaped IHDR chunk. -/
theorem chunkWalk_IHDR (fuel : Nat) (crc : List Nat → Nat)
    (w hgt d ctn cm fm il : Nat) (rest : List Nat) (st : ChunkState)
    (hw : w < 2 ^ 32) (hh : hgt < 2 ^ 32) :
    chunkWalk (fuel + 1)
      (writeChunk crc tyIHDR (be32 w ++ be32 hgt ++ [d, ctn, cm, fm, il]) ++ rest) st
      = if cm ≠ 0 then .error compErr
        else if fm ≠ 0 then .error filterMethodErr
        else if il ≠ 0 then .error interlaceErr
        else chunkWalk fuel rest
          { st with
              width := w
              height := hgt
              bitDepth := d
              colorFormat := colorFormatNumbersRev ctn } := by
  have hdlen : (be32 w ++ be32 hgt ++ [d, ctn, cm, fm, il]).length = 13 := by simp
  have hr := chunk_reads tyIHDR (be32 w ++ be32 hgt ++ [d, ctn, cm, fm, il])
    (crc (tyIHDR ++ (be32 w ++ be32 hgt ++ [d, ctn, cm, fm, il]))) rest rfl
    (by rw [hdlen]; norm_num)
  have hshape : writeChunk crc tyIHDR (be32 w ++ be32 hgt ++ [d, ctn, cm, fm, il]) ++ rest
      = be32 (be32 w ++ be32 hgt ++ [d, ctn, cm, fm, il]).length
        ++ (tyIHDR ++ ((be32 w ++ be32 hgt ++ [d, ctn, cm, fm, il])
          ++ (be32 (crc (tyIHDR ++ (be32 w ++ be32 hgt ++ [d, ctn, cm, fm, il])))
            ++ rest))) := by
    simp [writeChunk]
  rw [hshape] at *
  obtain ⟨hread, hty, hdata, hdrop, hlen⟩ := hr
  have h8 : (be32 (be32 w ++ be32 hgt ++ [d, ctn, cm, fm, il]).length
      ++ (tyIHDR ++ ((be32 w ++ be32 hgt ++ [d, ctn, cm, fm, il])
        ++ (be32 (crc (tyIHDR ++ (be32 w ++ be32 hgt ++ [d, ctn, cm, fm, il])))
          ++ rest)))).drop 8
      = (be32 w ++ be32 hgt ++ [d, ctn, cm, fm, il])
        ++ (be32 (crc (tyIHDR ++ (be32 w ++ be32 hgt ++ [d, ctn, cm, fm, il])))
          ++ rest) := by
    rw [show (8 : Nat) = 4 + 4 from rfl, ← List.drop_drop,
      List.drop_left' (length_be32 _)]
    exact List.drop_left' rfl
  apply chunkWalk_IHDR_step
  · intro hemp
    rw [hemp] at hlen
    simp only [List.length_nil] at hlen
    omega
  · rw [hlen, hdlen]
    omega
  · rw [hread, hdlen]
  · exact hty
  · rw [h8]
    simp only [List.append_assoc]
    exact readU32_be32 _ _ hw
  · rw [show (12 : Nat) = 8 + 4 from rfl, ← List.drop_drop, h8]
    simp only [List.append_assoc]
    rw [List.drop_left' (length_be32 _)]
    exact readU32_be32 _ _ hh
  · rw [getD_eq_getD_drop _ 16, show (16 : Nat) = 8 + 8 from rfl,
      ← List.drop_drop, h8]
    simp only [List.append_assoc]
    rw [show (8 : Nat) = 4 + 4 from rfl, ← List.drop_drop,
      List.drop_left' (length_be32 _), List.drop_left' (length_be32 _)]
    rfl
  · rw [getD_eq_getD_drop _ 17, show (17 : Nat) = 8 + 9 from rfl,
      ← List.drop_drop, h8]
    simp only [List.append_assoc]
    rw [show (9 : Nat) = 4 + 5 from rfl, ← List.drop_drop,
      List.drop_left' (length_be32 _)]
    rw [show (5 : Nat) = 4 + 1 from rfl, ← List.drop_drop,
      List.drop_left' (length_be32 _)]
    rfl
  · rw [getD_eq_getD_drop _ 18, show (18 : Nat) = 8 + 10 from rfl,
      ← List.drop_drop, h8]
    simp only [List.append_assoc]
    rw [show (10 : Nat) = 4 + 6 from rfl, ← List.drop_drop,
      List.drop_left' (length_be32 _)]
    rw [show (6 : Nat) = 4 + 2 from rfl, ← List.drop_drop,
      List.drop_left' (length_be32 _)]
    rfl
  · rw [getD_eq_getD_drop _ 19, show (19 : Nat) = 8 + 11 from rfl,
      ← List.drop_drop, h8]
    simp only [List.append_assoc]
    rw [show (11 : Nat) = 4 + 7 from rfl, ← List.drop_drop,
      List.drop_left' (length_be32 _)]
    rw [show (7 : Nat) = 4 + 3 from rfl, ← List.drop_drop,
      List.drop_left' (length_be32 _)]
    rfl
  · rw [getD_eq_getD_drop _ 20, show (20 : Nat) = 8 + 12 from rfl,
      ← List.drop_drop, h8]
    simp only [List.append_assoc]
    rw [show (12 : Nat) = 4 + 8 from rfl, ← List.drop_drop,
      List.drop_left' (length_be32 _)]
    rw [show (8 : Nat) = 4 + 4 from rfl, ← List.drop_drop,
      List.drop_left' (length_be32 _)]
    rfl
  · rw [show (25 : Nat) = 8 + 13 + 4 from rfl, ← hdlen] at *
    exact hdrop

/-! ## The encoder's scanlines and their defiltering -/

theorem rev_numbers (cf : ColorFormat) :
    colorFormatNumbersRev (colorFormatNumbers cf) = some cf := by
  cases cf <;> rfl

theorem scanlinesOf_succ (raw : List Nat) (bpr h : Nat) :
    scanlinesOf raw bpr (h + 1)
      = (0 :: raw.take bpr) ++ scanlinesOf (raw.drop bpr) bpr h := by
  unfold scanlinesOf
  rw [List.range_succ_eq_map, List.flatMap_cons]
  congr 1
  · simp
  · rw [List.flatMap_map]
    congr 1
    funext y
    have hidx : (y + 1) * bpr = bpr + y * bpr := by ring
    rw [hidx, ← List.drop_drop]

theorem length_scanlinesOf (raw : List Nat) (bpr h : Nat)
    (hlen : bpr * h ≤ raw.length) :
    (scanlinesOf raw bpr h).length = h * (1 + bpr) := by
  induction h generalizing raw with
  | zero => simp [scanlinesOf]
  | succ n ih =>
    have hmul : bpr * (n + 1) = bpr * n + bpr := by ring
    rw [hmul] at hlen
    rw [scanlinesOf_succ, List.length_append, List.length_cons, List.length_take,
      ih (raw.drop bpr) (by rw [List.length_drop]; omega)]
    have hmin : min bpr raw.length = bpr := by omega
    rw [hmin]
    ring

theorem reconAux_zero (prev : List Nat) (bpp : Nat) :
    ∀ (l : List Nat) (x : Nat) (curr : List Nat),
      reconAux 0 prev bpp l x curr = .ok (curr ++ l)
  | [], _, curr => by simp [reconAux]
  | b :: rest, x, curr => by
    rw [reconAux]
    rw [reconAux_zero prev bpp rest (x + 1) (curr ++ [b])]
    simp

theorem reconRow_zero (scan prev : List Nat) (bpp : Nat) :
    reconRow 0 scan prev bpp = .ok scan := by
  rw [reconRow, reconAux_zero]
  simp

theorem defilterAll_zero (bpr bpp : Nat) :
    ∀ (h : Nat) (raw prev : List Nat), raw.length = bpr * h →
      defilterAll (scanlinesOf raw bpr h) bpr bpp h prev = .ok raw
  | 0, raw, prev, hlen => by
    have : raw = [] := List.eq_nil_of_length_eq_zero (by omega)
    subst this
    simp [defilterAll]
  | n + 1, raw, prev, hlen => by
    have hmul : bpr * (n + 1) = bpr * n + bpr := by ring
    have hbpr : bpr ≤ raw.length := by omega
    have htklen : (raw.take bpr).length = bpr := by
      rw [List.length_take]
      omega
    rw [scanlinesOf_succ]
    rw [defilterAll]
    simp only [List.cons_append, List.getD_cons_zero, List.drop_succ_cons,
      List.drop_zero]
    rw [List.take_left' htklen]
    rw [reconRow_zero]
    have hdroprest : ((raw.take bpr ++ scanlinesOf (raw.drop bpr) bpr n).drop (1 + bpr - 1))
        = scanlinesOf (raw.drop bpr) bpr n := by
      rw [show 1 + bpr - 1 = bpr from by omega]
      exact List.drop_left' htklen
    rw [show (1 + bpr) = bpr + 1 from by omega]
    simp only [List.drop_succ_cons]
    rw [List.drop_left' htklen]
    rw [defilterAll_zero bpr bpp n (raw.drop bpr) (raw.take bpr)
      (by rw [List.length_drop]; omega)]
    simp [List.take_append_drop]

/-! ## The encode/decode round trip -/

theorem decode_after_walk (inflate : List Nat → Except String (List Nat))
    (image : List Nat) (w hgt bd : Nat) (cf : ColorFormat)
    (pal trns : Option (List Nat)) (gamv : Option Nat) (idat : List (List Nat))
    (hsig : image.take 8 = pngSignature)
    (hwalk : chunkWalk ((image.drop 8).length + 1) (image.drop 8) {}
      = .ok ⟨w, hgt, bd, some cf, pal, trns, gamv, idat⟩) :
    decode inflate image
      = match inflate idat.flatten with
        | .error e => .error e
        | .ok decompressed =>
          if decompressed.length
              ≠ hgt * (1 + (bd * colorFormatChannels cf * w + 7) / 8) then
            .error (lengthErr
              (toString (hgt * (1 + (bd * colorFormatChannels cf * w + 7) / 8)))
              (toString decompressed.length))
          else
            match defilterAll decompressed
                ((bd * colorFormatChannels cf * w + 7) / 8)
                ((bd * colorFormatChannels cf + 7) / 8) hgt
                (List.replicate ((bd * colorFormatChannels cf * w + 7) / 8) 0) with
            | .error e => .error e
            | .ok raw =>
              if cf = .Indexed then
                .ok { raw := raw, width := w, height := hgt, bitDepth := bd,
                      colorFormat := cf, palette := some (pal.getD []),
                      trns := trns, gamma := gamv }
              else
                .ok { raw := raw, width := w, height := hgt, bitDepth := bd,
                      colorFormat := cf, palette := none,
                      trns := trns, gamma := gamv } := by
  rw [decode]
  rw [if_neg (by rw [hsig]; simp)]
  rw [hwalk]

theorem bind_ok (img : List Nat) (f : List Nat → Except String DecodeResult) :
    (Except.ok img : Except String (List Nat)).bind f = f img := rfl

/-- C1 (amended): for every legal `(colorFormat, bitDepth)` pair, a raw
buffer of the matching packed length, a palette when Indexed, and u32-sized
dimensions and compressed payload, decoding the bytes produced by `encode`
(with inflate the inverse of deflate) succeeds and returns a `DecodeResult`
whose `raw` is byte-equal to the encode input and whose metadata fields are
preserved.  The byte equality holds at the format-native level (before any
RGBA promotion); promoting the decode result to RGBA changes the bytes,
see the counterexample. -/
theorem decode_encode_roundtrip (inflate : List Nat → Except String (List Nat))
    (deflate : List Nat → List Nat) (crc : List Nat → Nat) (opts : EncodeOpts)
    (hinv : ∀ x, inflate (deflate x) = .ok x)
    (hd : opts.bitDepth = 1 ∨ opts.bitDepth = 2 ∨ opts.bitDepth = 4 ∨ opts.bitDepth = 8)
    (hlegal : ¬ (opts.bitDepth < 8 ∧ opts.colorFormat ≠ .GrayScale
      ∧ opts.colorFormat ≠ .Indexed))
    (hraw : opts.raw.length
      = (opts.width * (colorFormatChannels opts.colorFormat * opts.bitDepth) + 7) / 8
        * opts.height)
    (hw : opts.width < 2 ^ 32) (hh : opts.height < 2 ^ 32)
    (hpal : opts.colorFormat = .Indexed →
      opts.palette.isSome ∧ (opts.palette.getD []).length < 2 ^ 32)
    (hdeflen : (deflate (scanlinesOf opts.raw
        ((opts.width * (colorFormatChannels opts.colorFormat * opts.bitDepth) + 7) / 8)
        opts.height)).length < 2 ^ 32) :
    (encode deflate crc opts).bind (decode inflate)
      = .ok { raw := opts.raw, width := opts.width, height := opts.height,
              bitDepth := opts.bitDepth, colorFormat := opts.colorFormat,
              palette := if opts.colorFormat = .Indexed
                then some (opts.palette.getD []) else none,
              trns := none, gamma := none } := by
  obtain ⟨raw, w, h, d, cf, pal⟩ := opts
  simp only at hd hlegal hraw hw hh hpal hdeflen
  have hd256 : d % 256 = d := by
    rcases hd with rfl | rfl | rfl | rfl <;> rfl
  have hrowlen : d * colorFormatChannels cf * w = w * (colorFormatChannels cf * d) := by
    ring
  have hsclen : (scanlinesOf raw ((w * (colorFormatChannels cf * d) + 7) / 8) h).length
      = h * (1 + (w * (colorFormatChannels cf * d) + 7) / 8) :=
    length_scanlinesOf raw _ h (by omega)
  have hdefil : ∀ bpp prev,
      defilterAll (scanlinesOf raw ((w * (colorFormatChannels cf * d) + 7) / 8) h)
        ((w * (colorFormatChannels cf * d) + 7) / 8) bpp h prev = .ok raw := by
    intro bpp prev
    exact defilterAll_zero _ _ h raw prev (by omega)
  by_cases hcf : cf = ColorFormat.Indexed
  · obtain ⟨hpsome, hplen⟩ := hpal hcf
    obtain ⟨p, hp⟩ := Option.isSome_iff_exists.mp hpsome
    subst hcf
    subst hp
    simp only [Option.getD_some] at hplen
    have henc : encode deflate crc ⟨raw, w, h, d, ColorFormat.Indexed, some p⟩
        = .ok (pngSignature ++ (writeIHDR crc w h d ColorFormat.Indexed
            ++ (writeChunk crc tyPLTE p
              ++ (writeChunk crc tyIDAT (deflate (scanlinesOf raw
                  ((w * (colorFormatChannels ColorFormat.Indexed * d) + 7) / 8) h))
                ++ writeChunk crc tyIEND [])))) := by
      simp only [encode]
      rw [if_neg (by simp)]
      rw [if_neg (by omega)]
      simp [List.append_assoc]
    rw [henc, bind_ok]
    have htake8 : (pngSignature ++ (writeIHDR crc w h d ColorFormat.Indexed
        ++ (writeChunk crc tyPLTE p
          ++ (writeChunk crc tyIDAT (deflate (scanlinesOf raw
              ((w * (colorFormatChannels ColorFormat.Indexed * d) + 7) / 8) h))
            ++ writeChunk crc tyIEND [])))).take 8 = pngSignature :=
      List.take_left' rfl
    have hwalk : chunkWalk (((pngSignature ++ (writeIHDR crc w h d ColorFormat.Indexed
        ++ (writeChunk crc tyPLTE p
          ++ (writeChunk crc tyIDAT (deflate (scanlinesOf raw
              ((w * (colorFormatChannels ColorFormat.Indexed * d) + 7) / 8) h))
            ++ writeChunk crc tyIEND [])))).drop 8).length + 1)
        ((pngSignature ++ (writeIHDR crc w h d ColorFormat.Indexed
        ++ (writeChunk crc tyPLTE p
          ++ (writeChunk crc tyIDAT (deflate (scanlinesOf raw
              ((w * (colorFormatChannels ColorFormat.Indexed * d) + 7) / 8) h))
            ++ writeChunk crc tyIEND [])))).drop 8) {}
        = .ok ⟨w, h, d, some ColorFormat.Indexed, some p, none, none,
            [deflate (scanlinesOf raw
              ((w * (colorFormatChannels ColorFormat.Indexed * d) + 7) / 8) h)]⟩ := by
      rw [List.drop_left' (show pngSignature.length = 8 from rfl)]
      rw [show writeIHDR crc w h d ColorFormat.Indexed = writeChunk crc tyIHDR
          (be32 w ++ be32 h ++ [d, colorFormatNumbers ColorFormat.Indexed, 0, 0, 0])
        from by rw [writeIHDR, hd256]]
      rw [chunkWalk_IHDR _ crc w h d _ 0 0 0 _ _ hw hh]
      rw [if_neg (by norm_num), if_neg (by norm_num), if_neg (by norm_num)]
      have hm1 : ∃ m, (writeChunk crc tyIHDR
          (be32 w ++ be32 h ++ [d, colorFormatNumbers ColorFormat.Indexed, 0, 0, 0])
            ++ (writeChunk crc tyPLTE p
              ++ (writeChunk crc tyIDAT (deflate (scanlinesOf raw
                  ((w * (colorFormatChannels ColorFormat.Indexed * d) + 7) / 8) h))
                ++ writeChunk crc tyIEND []))).length = m + 1 :=
        Nat.exists_eq_succ_of_ne_zero (by simp [tyIHDR, tyPLTE, tyIDAT, tyIEND])
      obtain ⟨m1, hm1⟩ := hm1
      rw [hm1]
      rw [chunkWalk_PLTE _ crc p _ _ hplen]
      have hm2 : ∃ m, m1 = m + 1 := by
        refine ⟨m1 - 1, ?_⟩
        have : 37 ≤ (writeChunk crc tyIHDR
            (be32 w ++ be32 h ++ [d, colorFormatNumbers ColorFormat.Indexed, 0, 0, 0])
              ++ (writeChunk crc tyPLTE p
                ++ (writeChunk crc tyIDAT (deflate (scanlinesOf raw
                    ((w * (colorFormatChannels ColorFormat.Indexed * d) + 7) / 8) h))
                  ++ writeChunk crc tyIEND []))).length := by
          simp only [List.length_append, length_writeChunk, tyIHDR, tyPLTE,
            tyIDAT, tyIEND, List.length_cons, List.length_nil]
          omega
        omega
      obtain ⟨m2, hm2⟩ := hm2
      rw [hm2]
      rw [chunkWalk_IDAT _ crc _ _ _ hdeflen]
      have hm3 : ∃ m, m2 = m + 1 := by
        refine ⟨m2 - 1, ?_⟩
        have : 49 ≤ (writeChunk crc tyIHDR
            (be32 w ++ be32 h ++ [d, colorFormatNumbers ColorFormat.Indexed, 0, 0, 0])
              ++ (writeChunk crc tyPLTE p
                ++ (writeChunk crc tyIDAT (deflate (scanlinesOf raw
                    ((w * (colorFormatChannels ColorFormat.Indexed * d) + 7) / 8) h))
                  ++ writeChunk crc tyIEND []))).length := by
          simp only [List.length_append, length_writeChunk, tyIHDR, tyPLTE,
            tyIDAT, tyIEND, List.length_cons, List.length_nil]
          omega
        omega
      obtain ⟨m3, hm3⟩ := hm3
      rw [hm3]
      rw [chunkWalk_IEND_nil]
      rw [rev_numbers]
      rfl
    rw [decode_after_walk inflate _ w h d ColorFormat.Indexed (some p)
      none none _ htake8 hwalk]
    simp only [List.flatten_cons, List.flatten_nil, List.append_nil]
    rw [hinv]
    simp only [hrowlen]
    rw [if_neg (by simp [hsclen])]
    rw [hdefil]
    simp
  · have henc : encode deflate crc ⟨raw, w, h, d, cf, pal⟩
        = .ok (pngSignature ++ (writeIHDR crc w h d cf
            ++ (writeChunk crc tyIDAT (deflate (scanlinesOf raw
                ((w * (colorFormatChannels cf * d) + 7) / 8) h))
              ++ writeChunk crc tyIEND []))) := by
      simp only [encode]
      rw [if_neg (by tauto)]
      rw [if_neg (by omega)]
      rw [if_neg hcf]
      simp [List.append_assoc]
    rw [henc, bind_ok]
    have htake8 : (pngSignature ++ (writeIHDR crc w h d cf
        ++ (writeChunk crc tyIDAT (deflate (scanlinesOf raw
            ((w * (colorFormatChannels cf * d) + 7) / 8) h))
          ++ writeChunk crc tyIEND []))).take 8 = pngSignature :=
      List.take_left' rfl
    have hwalk : chunkWalk (((pngSignature ++ (writeIHDR crc w h d cf
        ++ (writeChunk crc tyIDAT (deflate (scanlinesOf raw
            ((w * (colorFormatChannels cf * d) + 7) / 8) h))
          ++ writeChunk crc tyIEND []))).drop 8).length + 1)
        ((pngSignature ++ (writeIHDR crc w h d cf
        ++ (writeChunk crc tyIDAT (deflate (scanlinesOf raw
            ((w * (colorFormatChannels cf * d) + 7) / 8) h))
          ++ writeChunk crc tyIEND []))).drop 8) {}
        = .ok ⟨w, h, d, some cf, none, none, none,
            [deflate (scanlinesOf raw
              ((w * (colorFormatChannels cf * d) + 7) / 8) h)]⟩ := by
      rw [List.drop_left' (show pngSignature.length = 8 from rfl)]
      rw [show writeIHDR crc w h d cf = writeChunk crc tyIHDR
          (be32 w ++ be32 h ++ [d, colorFormatNumbers cf, 0, 0, 0])
        from by rw [writeIHDR, hd256]]
      rw [chunkWalk_IHDR _ crc w h d _ 0 0 0 _ _ hw hh]
      rw [if_neg (by norm_num), if_neg (by norm_num), if_neg (by norm_num)]
      have hm1 : ∃ m, (writeChunk crc tyIHDR
          (be32 w ++ be32 h ++ [d, colorFormatNumbers cf, 0, 0, 0])
            ++ (writeChunk crc tyIDAT (deflate (scanlinesOf raw
                ((w * (colorFormatChannels cf * d) + 7) / 8) h))
              ++ writeChunk crc tyIEND [])).length = m + 1 :=
        Nat.exists_eq_succ_of_ne_zero (by simp [tyIHDR, tyIDAT, tyIEND])
      obtain ⟨m1, hm1⟩ := hm1
      rw [hm1]
      rw [chunkWalk_IDAT _ crc _ _ _ hdeflen]
      have hm2 : ∃ m, m1 = m + 1 := by
        refine ⟨m1 - 1, ?_⟩
        have : 37 ≤ (writeChunk crc tyIHDR
            (be32 w ++ be32 h ++ [d, colorFormatNumbers cf, 0, 0, 0])
              ++ (writeChunk crc tyIDAT (deflate (scanlinesOf raw
                  ((w * (colorFormatChannels cf * d) + 7) / 8) h))
                ++ writeChunk crc tyIEND [])).length := by
          simp only [List.length_append, length_writeChunk, tyIHDR,
            tyIDAT, tyIEND, List.length_cons, List.length_nil]
          omega
        omega
      obtain ⟨m2, hm2⟩ := hm2
      rw [hm2]
      rw [chunkWalk_IEND_nil]
      rw [rev_numbers]
      rfl
    rw [decode_after_walk inflate _ w h d cf none none none _ htake8 hwalk]
    simp only [List.flatten_cons, List.flatten_nil, List.append_nil]
    rw [hinv]
    simp only [hrowlen]
    rw [if_neg (by simp [hsclen])]
    rw [hdefil]
    simp [hcf]

/-! ## The forward scanline filter (spec, Scanline Filter Codec) -/

/-- Modelled from the spec: the source has no forward filter (its encoder
always emits filter type 0), so this is the specification's reference
definition of the per-row forward PNG filter: each output byte is the
original byte minus the predictor for the filter type (0 none, 1 left,
2 up, 3 the average of left and up, 4 the Paeth choice), modulo 256, with
neighbors taken as 0 out of bounds.  The subtraction is written
`(o + 256 - p % 256) % 256`, the mod-256 difference in `Nat`. -/
def filterRowSpec (ft : Nat) (orig prev : List Nat) (bpp : Nat) : List Nat :=
  (List.range orig.length).map fun x =>
    let o := orig.getD x 0
    let left := if bpp ≤ x then orig.getD (x - bpp) 0 else 0
    let up := prev.getD x 0
    let upLeft := if bpp ≤ x then prev.getD (x - bpp) 0 else 0
    if ft = 0 then o
    else if ft = 1 then (o + 256 - left % 256) % 256
    else if ft = 2 then (o + 256 - up % 256) % 256
    else if ft = 3 then (o + 256 - (left + up) / 2 % 256) % 256
    else if ft = 4 then (o + 256 - paethPredictor left up upLeft % 256) % 256
    else o

theorem sub_mod_add (o p : Nat) (ho : o < 256) :
    ((o + 256 - p % 256) % 256 + p) % 256 = o := by omega

theorem getD_take (l : List Nat) (n i : Nat) (h : i < n) :
    (l.take n).getD i 0 = l.getD i 0 := by
  simp [List.getD_eq_getElem?_getD, List.getElem?_take, h]

theorem take_concat_getD (l : List Nat) (x : Nat) (h : x < l.length) :
    l.take x ++ [l.getD x 0] = l.take (x + 1) := by
  rw [List.take_succ, getElem?_eq_some_getD l x h]
  rfl

/-! One-step unfoldings of the reconstruction loop at each filter type. -/

theorem reconAux_cons_0 (prev : List Nat) (bpp b : Nat) (rest : List Nat)
    (x : Nat) (curr : List Nat) :
    reconAux 0 prev bpp (b :: rest) x curr
      = reconAux 0 prev bpp rest (x + 1) (curr ++ [b]) := rfl

theorem reconAux_cons_1 (prev : List Nat) (bpp b : Nat) (rest : List Nat)
    (x : Nat) (curr : List Nat) :
    reconAux 1 prev bpp (b :: rest) x curr
      = reconAux 1 prev bpp rest (x + 1)
          (curr ++ [(b + (if bpp ≤ x then curr.getD (x - bpp) 0 else 0)) % 256]) := rfl

theorem reconAux_cons_2 (prev : List Nat) (bpp b : Nat) (rest : List Nat)
    (x : Nat) (curr : List Nat) :
    reconAux 2 prev bpp (b :: rest) x curr
      = reconAux 2 prev bpp rest (x + 1) (curr ++ [(b + prev.getD x 0) % 256]) := rfl

theorem reconAux_cons_3 (prev : List Nat) (bpp b : Nat) (rest : List Nat)
    (x : Nat) (curr : List Nat) :
    reconAux 3 prev bpp (b :: rest) x curr
      = reconAux 3 prev bpp rest (x + 1)
          (curr ++ [(b + ((if bpp ≤ x then curr.getD (x - bpp) 0 else 0)
              + prev.getD x 0) / 2) % 256]) := rfl

theorem reconAux_cons_4 (prev : List Nat) (bpp b : Nat) (rest : List Nat)
    (x : Nat) (curr : List Nat) :
    reconAux 4 prev bpp (b :: rest) x curr
      = reconAux 4 prev bpp rest (x + 1)
          (curr ++ [(b + paethPredictor
              (if bpp ≤ x then curr.getD (x - bpp) 0 else 0)
              (prev.getD x 0)
              (if bpp ≤ x then prev.getD (x - bpp) 0 else 0)) % 256]) := rfl

theorem filterRowSpec_getD (ft : Nat) (orig prev : List Nat) (bpp x : Nat)
    (hx : x < orig.length) :
    (filterRowSpec ft orig prev bpp).getD x 0
      = (if ft = 0 then orig.getD x 0
         else if ft = 1 then (orig.getD x 0 + 256
             - (if bpp ≤ x then orig.getD (x - bpp) 0 else 0) % 256) % 256
         else if ft = 2 then (orig.getD x 0 + 256 - prev.getD x 0 % 256) % 256
         else if ft = 3 then (orig.getD x 0 + 256
             - ((if bpp ≤ x then orig.getD (x - bpp) 0 else 0)
                 + prev.getD x 0) / 2 % 256) % 256
         else if ft = 4 then (orig.getD x 0 + 256
             - paethPredictor (if bpp ≤ x then orig.getD (x - bpp) 0 else 0)
                 (prev.getD x 0)
                 (if bpp ≤ x then prev.getD (x - bpp) 0 else 0) % 256) % 256
         else orig.getD x 0) := by
  unfold filterRowSpec
  rw [getD_map_range _ _ _ hx]

theorem filterRow_drop_cons (ft : Nat) (orig prev : List Nat) (bpp x : Nat)
    (hx : x < orig.length) :
    (filterRowSpec ft orig prev bpp).drop x
      = (filterRowSpec ft orig prev bpp).getD x 0
        :: (filterRowSpec ft orig prev bpp).drop (x + 1) := by
  have hflen : (filterRowSpec ft orig prev bpp).length = orig.length := by
    simp [filterRowSpec]
  rw [List.drop_eq_getElem_cons (by omega)]
  congr 1
  simp [List.getD_eq_getElem?_getD,
    List.getElem?_eq_getElem (show x < (filterRowSpec ft orig prev bpp).length by omega)]

theorem reconAux_filterRow (ft : Nat) (orig prev : List Nat) (bpp : Nat)
    (hft : ft ≤ 4) (hbpp : 1 ≤ bpp) (hv : ∀ v ∈ orig, v < 256) :
    ∀ n x, x + n = orig.length →
      reconAux ft prev bpp ((filterRowSpec ft orig prev bpp).drop x) x (orig.take x)
        = .ok orig := by
  have hflen : (filterRowSpec ft orig prev bpp).length = orig.length := by
    simp [filterRowSpec]
  intro n
  induction n with
  | zero =>
    intro x hx
    rw [List.drop_eq_nil_of_le (by omega), reconAux,
      List.take_of_length_le (by omega)]
  | succ m ih =>
    intro x hx
    have hxlt : x < orig.length := by omega
    have ho : orig.getD x 0 < 256 := hv _ (getD_mem_of_lt orig x hxlt)
    have hleft : (if bpp ≤ x then (orig.take x).getD (x - bpp) 0 else 0)
        = (if bpp ≤ x then orig.getD (x - bpp) 0 else 0) := by
      by_cases hc : bpp ≤ x
      · rw [if_pos hc, if_pos hc, getD_take orig x (x - bpp) (by omega)]
      · rw [if_neg hc, if_neg hc]
    have hcase : ft = 0 ∨ ft = 1 ∨ ft = 2 ∨ ft = 3 ∨ ft = 4 := by omega
    rw [filterRow_drop_cons ft orig prev bpp x hxlt,
      filterRowSpec_getD ft orig prev bpp x hxlt]
    rcases hcase with rfl | rfl | rfl | rfl | rfl
    · norm_num
      rw [reconAux_cons_0]
      simp only [← List.getD_eq_getElem?_getD, hleft]
      rw [take_concat_getD orig x hxlt]
      exact ih (x + 1) (by omega)
    · norm_num
      rw [reconAux_cons_1]
      simp only [← List.getD_eq_getElem?_getD, hleft]
      rw [sub_mod_add _ _ ho, take_concat_getD orig x hxlt]
      exact ih (x + 1) (by omega)
    · norm_num
      rw [reconAux_cons_2]
      simp only [← List.getD_eq_getElem?_getD, hleft]
      rw [sub_mod_add _ _ ho, take_concat_getD orig x hxlt]
      exact ih (x + 1) (by omega)
    · norm_num
      rw [reconAux_cons_3]
      simp only [← List.getD_eq_getElem?_getD, hleft]
      rw [sub_mod_add _ _ ho, take_concat_getD orig x hxlt]
      exact ih (x + 1) (by omega)
    · norm_num
      rw [reconAux_cons_4]
      simp only [← List.getD_eq_getElem?_getD, hleft]
      rw [sub_mod_add _ _ ho, take_concat_getD orig x hxlt]
      exact ih (x + 1) (by omega)

/-- C5: for every scanline of bytes, every previous row, every byte stride
`bpp ≥ 1` and every filter type in 0..4, filtering the row forward (the
specification's reference filter, Paeth predictor included) and then running
the decoder's per-byte reconstruction recovers the original row exactly. -/
theorem reconRow_filterRowSpec (ft : Nat) (orig prev : List Nat) (bpp : Nat)
    (hft : ft ≤ 4) (hbpp : 1 ≤ bpp) (hv : ∀ v ∈ orig, v < 256) :
    reconRow ft (filterRowSpec ft orig prev bpp) prev bpp = .ok orig := by
  have h := reconAux_filterRow ft orig prev bpp hft hbpp hv orig.length 0 (by omega)
  simpa [reconRow] using h

/-- Witness for `reconRow_filterRowSpec` on a concrete Paeth-filtered row. -/
theorem reconRow_filterRowSpec_witness :
    reconRow 4 (filterRowSpec 4 [10, 250, 3] [7, 200, 9] 1) [7, 200, 9] 1
      = .ok [10, 250, 3] :=
  reconRow_filterRowSpec 4 [10, 250, 3] [7, 200, 9] 1 (by decide) (by decide)
    (by decide)

/-! ## Error conditions of `decode` -/

theorem decode_after_walk_error (inflate : List Nat → Except String (List Nat))
    (image : List Nat) (e : String)
    (hsig : image.take 8 = pngSignature)
    (hwalk : chunkWalk ((image.drop 8).length + 1) (image.drop 8) {} = .error e) :
    decode inflate image = .error e := by
  rw [decode, if_neg (by rw [hsig]; simp), hwalk]

theorem reconAux_cons_big (f : Nat) (hf : 4 < f) (prev : List Nat) (bpp b : Nat)
    (rest : List Nat) (x : Nat) (curr : List Nat) :
    reconAux f prev bpp (b :: rest) x curr = .error (filterTypeErr f) := by
  obtain ⟨k, rfl⟩ : ∃ k, f = k + 5 := ⟨f - 5, by omega⟩
  rfl

/-- C6 counterexample: the claim lists the inputs on which `decode` raises,
but `decode` also raises on inputs outside that list: after a valid
signature, a truncated chunk header makes the `DataView` length read throw a
`RangeError` — an error that is neither a signature, IHDR-byte, filter-byte
nor decompressed-length condition. -/
theorem decode_error_conditions_counterexample :
    ([137, 80, 78, 71, 13, 10, 26, 10, 0] : List Nat).take 8 = pngSignature
      ∧ decode Except.ok [137, 80, 78, 71, 13, 10, 26, 10, 0] = .error oobErr := by
  constructor
  · rfl
  · rfl

/-- C6 (amended): the error conditions of `decode` that the claim lists are
each sufficient, with the stated messages: a bad 8-byte signature raises the
signature error; in a well-framed IHDR chunk a non-zero compression,
filter-method or interlace byte raises the corresponding "unsupported"
error; a scanline filter byte above 4 makes row reconstruction raise the
"Unknown filter type" error; and on an encoder-framed stream whose inflated
IDAT payload has the wrong length, `decode` raises the length error
reporting the expected and actual values.  (The conditions are not
exhaustive: see the counterexample for an error outside the claim's list.) -/
theorem decode_error_conditions_amended :
    (∀ (inflate : List Nat → Except String (List Nat)) (image : List Nat),
        image.take 8 ≠ pngSignature → decode inflate image = .error sigErr)
    ∧ (∀ (inflate : List Nat → Except String (List Nat)) (crc : List Nat → Nat)
        (w hgt d ctn cm fm il : Nat) (rest : List Nat),
        w < 2 ^ 32 → hgt < 2 ^ 32 → cm ≠ 0 →
        decode inflate (pngSignature ++ (writeChunk crc tyIHDR
            (be32 w ++ be32 hgt ++ [d, ctn, cm, fm, il]) ++ rest))
          = .error compErr)
    ∧ (∀ (inflate : List Nat → Except String (List Nat)) (crc : List Nat → Nat)
        (w hgt d ctn fm il : Nat) (rest : List Nat),
        w < 2 ^ 32 → hgt < 2 ^ 32 → fm ≠ 0 →
        decode inflate (pngSignature ++ (writeChunk crc tyIHDR
            (be32 w ++ be32 hgt ++ [d, ctn, 0, fm, il]) ++ rest))
          = .error filterMethodErr)
    ∧ (∀ (inflate : List Nat → Except String (List Nat)) (crc : List Nat → Nat)
        (w hgt d ctn il : Nat) (rest : List Nat),
        w < 2 ^ 32 → hgt < 2 ^ 32 → il ≠ 0 →
        decode inflate (pngSignature ++ (writeChunk crc tyIHDR
            (be32 w ++ be32 hgt ++ [d, ctn, 0, 0, il]) ++ rest))
          = .error interlaceErr)
    ∧ (∀ (f : Nat) (scan prev : List Nat) (bpp : Nat), 4 < f → scan ≠ [] →
        reconRow f scan prev bpp = .error (filterTypeErr f))
    ∧ (∀ (inflate : List Nat → Except String (List Nat)) (crc : List Nat → Nat)
        (w hgt d : Nat) (cf : ColorFormat) (payload dec : List Nat),
        w < 2 ^ 32 → hgt < 2 ^ 32 → payload.length < 2 ^ 32 →
        inflate payload = .ok dec →
        dec.length ≠ hgt * (1 + (d * colorFormatChannels cf * w + 7) / 8) →
        decode inflate (pngSignature ++ (writeChunk crc tyIHDR
            (be32 w ++ be32 hgt ++ [d, colorFormatNumbers cf, 0, 0, 0])
          ++ (writeChunk crc tyIDAT payload ++ writeChunk crc tyIEND [])))
          = .error (lengthErr
              (toString (hgt * (1 + (d * colorFormatChannels cf * w + 7) / 8)))
              (toString dec.length))) := by
  refine ⟨?_, ?_, ?_, ?_, ?_, ?_⟩
  · intro inflate image h
    rw [decode, if_pos h]
  · intro inflate crc w hgt d ctn cm fm il rest hw hh hcm
    apply decode_after_walk_error
    · exact List.take_left' rfl
    · rw [List.drop_left' (show pngSignature.length = 8 from rfl)]
      obtain ⟨m1, hm1⟩ : ∃ m, (writeChunk crc tyIHDR
          (be32 w ++ be32 hgt ++ [d, ctn, cm, fm, il]) ++ rest).length = m + 1 :=
        Nat.exists_eq_succ_of_ne_zero (by simp [tyIHDR])
      rw [hm1, chunkWalk_IHDR _ crc w hgt d ctn cm fm il rest {} hw hh,
        if_pos hcm]
  · intro inflate crc w hgt d ctn fm il rest hw hh hfm
    apply decode_after_walk_error
    · exact List.take_left' rfl
    · rw [List.drop_left' (show pngSignature.length = 8 from rfl)]
      obtain ⟨m1, hm1⟩ : ∃ m, (writeChunk crc tyIHDR
          (be32 w ++ be32 hgt ++ [d, ctn, 0, fm, il]) ++ rest).length = m + 1 :=
        Nat.exists_eq_succ_of_ne_zero (by simp [tyIHDR])
      rw [hm1, chunkWalk_IHDR _ crc w hgt d ctn 0 fm il rest {} hw hh,
        if_neg (by norm_num), if_pos hfm]
  · intro inflate crc w hgt d ctn il rest hw hh hil
    apply decode_after_walk_error
    · exact List.take_left' rfl
    · rw [List.drop_left' (show pngSignature.length = 8 from rfl)]
      obtain ⟨m1, hm1⟩ : ∃ m, (writeChunk crc tyIHDR
          (be32 w ++ be32 hgt ++ [d, ctn, 0, 0, il]) ++ rest).length = m + 1 :=
        Nat.exists_eq_succ_of_ne_zero (by simp [tyIHDR])
      rw [hm1, chunkWalk_IHDR _ crc w hgt d ctn 0 0 il rest {} hw hh,
        if_neg (by norm_num), if_neg (by norm_num), if_pos hil]
  · intro f scan prev bpp hf hne
    obtain ⟨b, rest, rfl⟩ : ∃ b rest, scan = b :: rest := by
      cases scan with
      | nil => exact absurd rfl hne
      | cons b rest => exact ⟨b, rest, rfl⟩
    rw [reconRow]
    exact reconAux_cons_big f hf prev bpp b rest 0 []
  · intro inflate crc w hgt d cf payload dec hw hh hpay hinf hne
    have htake8 : (pngSignature ++ (writeChunk crc tyIHDR
        (be32 w ++ be32 hgt ++ [d, colorFormatNumbers cf, 0, 0, 0])
      ++ (writeChunk crc tyIDAT payload ++ writeChunk crc tyIEND []))).take 8
        = pngSignature := List.take_left' rfl
    have hwalk : chunkWalk (((pngSignature ++ (writeChunk crc tyIHDR
        (be32 w ++ be32 hgt ++ [d, colorFormatNumbers cf, 0, 0, 0])
      ++ (writeChunk crc tyIDAT payload ++ writeChunk crc tyIEND []))).drop 8).length + 1)
        ((pngSignature ++ (writeChunk crc tyIHDR
          (be32 w ++ be32 hgt ++ [d, colorFormatNumbers cf, 0, 0, 0])
        ++ (writeChunk crc tyIDAT payload ++ writeChunk crc tyIEND []))).drop 8) {}
        = .ok ⟨w, hgt, d, some cf, none, none, none, [payload]⟩ := by
      rw [List.drop_left' (show pngSignature.length = 8 from rfl)]
      obtain ⟨m1, hm1⟩ : ∃ m, (writeChunk crc tyIHDR
          (be32 w ++ be32 hgt ++ [d, colorFormatNumbers cf, 0, 0, 0])
        ++ (writeChunk crc tyIDAT payload ++ writeChunk crc tyIEND [])).length = m + 1 :=
        Nat.exists_eq_succ_of_ne_zero (by simp [tyIHDR, tyIDAT, tyIEND])
      rw [hm1, chunkWalk_IHDR _ crc w hgt d _ 0 0 0 _ _ hw hh,
        if_neg (by norm_num), if_neg (by norm_num), if_neg (by norm_num)]
      obtain ⟨m2, hm2⟩ : ∃ m, m1 = m + 1 := by
        refine ⟨m1 - 1, ?_⟩
        have : 37 ≤ (writeChunk crc tyIHDR
            (be32 w ++ be32 hgt ++ [d, colorFormatNumbers cf, 0, 0, 0])
          ++ (writeChunk crc tyIDAT payload ++ writeChunk crc tyIEND [])).length := by
          simp only [List.length_append, length_writeChunk, tyIHDR, tyIDAT,
            tyIEND, List.length_cons, List.length_nil]
          omega
        omega
      rw [hm2, chunkWalk_IDAT _ crc payload _ _ hpay]
      obtain ⟨m3, hm3⟩ : ∃ m, m2 = m + 1 := by
        refine ⟨m2 - 1, ?_⟩
        have : 37 ≤ (writeChunk crc tyIHDR
            (be32 w ++ be32 hgt ++ [d, colorFormatNumbers cf, 0, 0, 0])
          ++ (writeChunk crc tyIDAT payload ++ writeChunk crc tyIEND [])).length := by
          simp only [List.length_append, length_writeChunk, tyIHDR, tyIDAT,
            tyIEND, List.length_cons, List.length_nil]
          omega
        omega
      rw [hm3, chunkWalk_IEND_nil]
      rw [rev_numbers]
      rfl
    rw [decode_after_walk inflate _ w hgt d cf none none none _ htake8 hwalk]
    simp only [List.flatten_cons, List.flatten_nil, List.append_nil]
    rw [hinf]
    simp only []
    rw [if_pos hne]

/-- Witness for `decode_error_conditions_amended`: a three-byte input has a
bad signature. -/
theorem decode_error_conditions_amended_witness :
    decode Except.ok [1, 2, 3] = .error sigErr :=
  decode_error_conditions_amended.1 Except.ok [1, 2, 3] (by decide)

/-! ## The TIC container (`binary/tic.ts`)

The TIC dictionary is a JavaScript `Map` from name strings to entries; the
model stores it as an association list in insertion order (`Map` iteration
order), with at most one binding per key as a `Map` has.  Names are handled
as their UTF-8 byte lists (on them the `TextEncoder`/`TextDecoder` pair is
the identity).  `dictLength` is a JavaScript number that `removeEntry`
decrements, so it is an `Int`; the entry fields are `Nat` (the one
subtraction on them, `byteOffset -= dataLength` in `removeEntry`, happens
below only where the span invariants keep it non-negative, where `Nat` and
JavaScript subtraction agree). -/

/-- The four TIC color formats (`ticColorFormats` of `types.ts`); the table
value is the channel count. -/
inductive TicColorFormat where
  | GrayScale
  | GrayScaleAlpha
  | RGB
  | RGBA
deriving DecidableEq, Repr

/-- `ticColorFormats.get`. -/
def ticColorFormats : TicColorFormat → Nat
  | .GrayScale => 1
  | .GrayScaleAlpha => 2
  | .RGB => 3
  | .RGBA => 4

/-- `ticColorFormats.revGet`: `none` off the table.  The one caller,
`TIC.from`, passes `(byte >> 6) + 1 ∈ 1..4`, so the lookup always succeeds
there and the `getD` default it is read with is unreachable. -/
def ticColorFormatsRev (n : Nat) : Option TicColorFormat :=
  if n = 1 then some .GrayScale
  else if n = 2 then some .GrayScaleAlpha
  else if n = 3 then some .RGB
  else if n = 4 then some .RGBA
  else none

/-- `TicDictEntry` of `types.ts`; `name` is the UTF-8 byte list. -/
structure TicDictEntry where
  byteOffset : Nat
  width : Nat
  height : Nat
  colorFormat : TicColorFormat
  bitDepth : Nat
  nameLength : Nat
  name : List Nat
deriving DecidableEq, Repr

/-- `TIC.entryDataLength`: `ceil(width * height * channels * bitDepth / 8)`. -/
def entryDataLength (e : TicDictEntry) : Nat :=
  (e.width * e.height * ticColorFormats e.colorFormat * e.bitDepth + 7) / 8

/-- The `TIC` class state. -/
structure TIC where
  dictLength : Int := 0
  dict : List (List Nat × TicDictEntry) := []
  dataChunk : List Nat := []
deriving DecidableEq, Repr

/-- `Map.set`: replace the binding in place when the key exists, append
otherwise. -/
def mapSet (m : List (List Nat × TicDictEntry)) (k : List Nat)
    (v : TicDictEntry) : List (List Nat × TicDictEntry) :=
  if m.any (fun p => p.1 == k) then
    m.map fun p => if p.1 == k then (k, v) else p
  else m ++ [(k, v)]

/-- The dictionary walk of `TIC.from`, with `cursor` the absolute position
and `dictEnd = dictLength + 4`.  The entry's five fixed fields occupy
`cursor..cursor+14`; a `DataView` read past the end throws, the `catch`
returns the entries collected so far, and the partially read entry is
dropped — so the walk returns `acc` exactly when `raw.length < cursor + 14`
(the name `subarray` clamps and never throws).  The fuel only makes the
recursion structural: the cursor advances by at least 14 per iteration, so
`dictEnd + 1` iterations are never exhausted. -/
def fromGo (raw : List Nat) (dictEnd : Nat) :
    Nat → Nat → List (List Nat × TicDictEntry) → List (List Nat × TicDictEntry)
  | 0, _, acc => acc
  | fuel + 1, cursor, acc =>
    if cursor < dictEnd then
      if raw.length < cursor + 14 then acc
      else
        let fb := raw.getD (cursor + 12) 0
        let nameLength := raw.getD (cursor + 13) 0
        let name := (raw.drop (cursor + 14)).take nameLength
        let entry : TicDictEntry :=
          { byteOffset := readU32 (raw.drop cursor)
            width := readU32 (raw.drop (cursor + 4))
            height := readU32 (raw.drop (cursor + 8))
            colorFormat := (ticColorFormatsRev ((fb >>> 6) + 1)).getD .GrayScale
            bitDepth := 1 <<< ((fb >>> 4) &&& 3)
            nameLength := nameLength
            name := name }
        fromGo raw dictEnd fuel (cursor + 14 + nameLength) (mapSet acc name entry)
    else acc

/-- `TIC.from`: read the declared `dictLength` (0 when the input is shorter
than 4 bytes), walk the dictionary, and take everything past
`dictLength + 4` as the data chunk. -/
def TIC.from (raw : List Nat) : TIC :=
  let dictLength := if 4 ≤ raw.length then readU32 raw else 0
  { dictLength := (dictLength : Int)
    dict := fromGo raw (dictLength + 4) (dictLength + 5) 4 []
    dataChunk := raw.drop (dictLength + 4) }

/-- `TIC.removeEntry`: splice the entry's span out of the data chunk, shift
every later offset down by the span length, shrink `dictLength`, drop the
binding (`find?` locates it; a `Map` has one binding per key, so `find?`
and `Map.delete` agree with the filter below on the states reached here). -/
def TIC.removeEntry (t : TIC) (entryName : List Nat) : TIC :=
  match t.dict.find? (fun p => p.1 == entryName) with
  | none => t
  | some pe =>
    let dataLength := entryDataLength pe.2
    { dictLength := t.dictLength - (14 + (pe.2.name.length : Int))
      dict := (t.dict.map fun p =>
          if pe.2.byteOffset < p.2.byteOffset then
            (p.1, { p.2 with byteOffset := p.2.byteOffset - dataLength })
          else p).filter fun p => !(p.1 == entryName)
      dataChunk := t.dataChunk.take pe.2.byteOffset
        ++ t.dataChunk.drop (pe.2.byteOffset + dataLength) }

/-- The members of the `PNG` class that `TIC.writeEntry` reads. -/
structure PNG where
  raw : List Nat
  width : Nat
  height : Nat
deriving Repr

/-- Modelled from the spec: the four-argument bit packer
`packBits(bytes, width, depth, normalise)` that `TIC.writeEntry` imports
from `format.ts` is not among the repository's staged files (the staged
`format.ts` carries the three-argument variant above).  Per the spec's Bit
Packer contract it is the identity at depth 8 and otherwise packs the flat
sample stream `8/depth` samples per byte, most-significant group first
(the same per-byte fold as the three-argument packer), rounding the output
length up; `width` does not enter the flat packing. -/
def packBits4 (bytes : List Nat) (width depth : Nat) (normalise : Bool) :
    List Nat :=
  if depth < 8 then
    (List.range ((bytes.length * depth + 7) / 8)).map (packFold bytes depth normalise)
  else bytes

/-- `TIC.writeEntry`: drop an existing entry of the same name (without
reclaiming its data span), reduce the image to the narrowest TIC format by
the `canBeGrayScale → canBeGrayScaleAlpha → canBeRGB` chain, bit-pack to
the requested depth, append the bytes, and insert the entry at the end of
the dictionary with `byteOffset` the old data-chunk length. -/
def TIC.writeEntry (t : TIC) (entryName : List Nat) (im : PNG)
    (bitDepth : Nat) : TIC :=
  let dict0 := if t.dict.any (fun p => p.1 == entryName) then
      t.dict.filter (fun p => !(p.1 == entryName))
    else t.dict
  let encodedRaw :=
    if canBeGrayScale im.raw then toGrayScale im.raw
    else if canBeGrayScaleAlpha im.raw then toGrayScaleAlpha im.raw
    else if canBeRGB im.raw then toRGB im.raw
    else im.raw
  let colorFormat : TicColorFormat :=
    if canBeGrayScale im.raw then .GrayScale
    else if canBeGrayScaleAlpha im.raw then .GrayScaleAlpha
    else if canBeRGB im.raw then .RGB
    else .RGBA
  let packed := packBits4 encodedRaw im.width bitDepth false
  let thisEntry : TicDictEntry :=
    { byteOffset := t.dataChunk.length
      width := im.width
      height := im.height
      colorFormat := colorFormat
      bitDepth := bitDepth
      nameLength := entryName.length
      name := entryName }
  { dictLength := t.dictLength + (14 + (entryName.length : Int))
    dict := mapSet dict0 entryName thisEntry
    dataChunk := t.dataChunk ++ packed }

/-- The per-entry fixes of `validate`: recompute `nameLength` from the
encoded name, truncating names longer than 256 bytes. -/
def fixEntry (e : TicDictEntry) : TicDictEntry :=
  if 256 < e.name.length then
    { e with name := e.name.take 256, nameLength := 256 }
  else { e with nameLength := e.name.length }

/-- One pass of `validate`: fix every entry, collect (in order) the names
of entries whose offset or span leaves the data chunk, and remove them;
the flag reports whether anything was removed. -/
def validatePass (t : TIC) : TIC × Bool :=
  let d1 := t.dict.map fun p => (p.1, fixEntry p.2)
  let t1 : TIC := { t with dict := d1 }
  let invalid := (d1.filter fun p =>
      decide (t.dataChunk.length ≤ p.2.byteOffset)
        || decide (t.dataChunk.length < p.2.byteOffset + entryDataLength p.2)).map
    fun p => p.2.name
  if invalid.isEmpty then (t1, false)
  else (invalid.foldl (fun acc n => acc.removeEntry n) t1, true)

/-- `TIC.validate` as called by `encode` (`alreadyValidated = false`): one
pass, and one bounded re-pass when the first removed anything. -/
def TIC.validate (t : TIC) : TIC :=
  match validatePass t with
  | (t1, false) => t1
  | (t1, true) => (validatePass t1).1

/-- The floor base-2 logarithm (`Math.log2` truncated to an integer by the
`<<` conversion), written with structural fuel so that it computes by
kernel reduction; `log2floorGo fuel n` needs only `fuel ≥ n`. -/
def log2floorGo : Nat → Nat → Nat
  | 0, _ => 0
  | fuel + 1, n => if n < 2 then 0 else log2floorGo fuel (n / 2) + 1

/-- `Math.log2` as stored in the TIC format byte. -/
def log2floor (n : Nat) : Nat := log2floorGo n n

/-- One serialized dictionary entry: the 4+4+4+1+1 fixed fields then the
name bytes.  Each `DataView`/`Uint8Array` store wraps its value (`be32` for
the u32 stores, `% 256` for the byte stores); `Math.log2 bitDepth`
truncated by the shift is the floor logarithm `log2floor`. -/
def dictEntryBytes (e : TicDictEntry) : List Nat :=
  be32 e.byteOffset ++ be32 e.width ++ be32 e.height
    ++ [(((ticColorFormats e.colorFormat - 1) <<< 6)
          + (log2floor e.bitDepth <<< 4)) % 256,
        e.nameLength % 256]
    ++ e.name.map (· % 256)

/-- `DataView`/`TypedArray.set` writes: replace `data.length` bytes of the
buffer at `off`, or `none` (a thrown `RangeError`) when the write leaves
the buffer. -/
def setBytes? (buf : List Nat) (off : Nat) (data : List Nat) :
    Option (List Nat) :=
  if off + data.length ≤ buf.length then
    some (buf.take off ++ data ++ buf.drop (off + data.length))
  else none

/-- The dict-serialization loop of `TIC.encode`: write each entry's bytes
at the running cursor.  The per-field stores are consecutive, so the first
out-of-bounds store happens exactly when the entry's whole block does not
fit. -/
def writeDictGo : List (List Nat × TicDictEntry) → List Nat → Nat →
    Option (List Nat)
  | [], buf, _ => some buf
  | p :: rest, buf, cursor =>
    (setBytes? buf cursor (dictEntryBytes p.2)).bind fun buf2 =>
      writeDictGo rest buf2 (cursor + (dictEntryBytes p.2).length)

/-- `TIC.encode`: `validate()`, then serialize into a zeroed buffer of
`dictLength + dataChunk.length + 4` bytes — the u32 `dictLength` header,
the dictionary entries from offset 4, and the data chunk overlaid at
`dictLength + 4`.  `none` models a thrown `RangeError` (negative buffer
length, a store past the buffer end, or a negative overlay offset), all
unreachable from a container whose stored `dictLength` matches its
dictionary. -/
def TIC.encode (t : TIC) : Option (List Nat) :=
  let tv := TIC.validate t
  let size : Int := tv.dictLength + tv.dataChunk.length + 4
  if size < 0 then none
  else
    (setBytes? (List.replicate size.toNat 0) 0
        (be32 (tv.dictLength % (2 ^ 32 : Int)).toNat)).bind fun buf1 =>
      (writeDictGo tv.dict buf1 4).bind fun buf2 =>
        if tv.dictLength < 0 then none
        else setBytes? buf2 (tv.dictLength.toNat + 4) tv.dataChunk

/-- C2: on an empty TIC, `writeEntry "test"` of the 2×2 RGBA test image
(first pixel alpha 254, so no narrower TIC format applies) at the default
bit depth 8, then `encode`, produces exactly the 38-byte fixture layout:
`dictLength = 18`, one dictionary entry `byteOffset 0, width 2, height 2,
formatByte 240, nameLength 4, "test"` with the name ending at offset 22,
then the 16 RGBA pixel bytes as the data chunk. -/
theorem tic_writeEntry_encode_fixture :
    TIC.encode (TIC.writeEntry {} [116, 101, 115, 116]
        ⟨[255, 0, 0, 254, 0, 255, 0, 255, 0, 0, 255, 255, 255, 255, 255, 255],
          2, 2⟩ 8)
      = some [0, 0, 0, 18,
              0, 0, 0, 0, 0, 0, 0, 2, 0, 0, 0, 2, 240, 4, 116, 101, 115, 116,
              255, 0, 0, 254, 0, 255, 0, 255, 0, 0, 255, 255,
              255, 255, 255, 255] := by
  decide

/-- C4 counterexample: on a truncated input `TIC.from` does not return the
empty container of the claim — the declared `dictLength` (40) is kept
rather than reset to 0, and the entry fully parsed before the
out-of-bounds read is retained rather than discarded. -/
theorem tic_from_truncated_counterexample :
    (TIC.from [0, 0, 0, 40, 0, 0, 0, 0, 0, 0, 0, 1, 0, 0, 0, 1, 240, 0]).dictLength
        = 40
      ∧ (TIC.from [0, 0, 0, 40, 0, 0, 0, 0, 0, 0, 0, 1, 0, 0, 0, 1, 240, 0]).dict
        ≠ [] := by
  constructor
  · rfl
  · decide

/-- C4 (amended): `TIC.from` never raises; on an input whose declared
`dictLength` makes the walk read past the end it keeps the declared
`dictLength` and the entries parsed before the failing read (none when
fewer than 14 bytes follow the header), and the data chunk is whatever
lies past `dictLength + 4` (empty on such truncated inputs). -/
theorem tic_from_truncated_amended (dl : Nat) (tail : List Nat)
    (hdl : dl < 2 ^ 32) (hpos : 0 < dl) (htail : tail.length < 14)
    (hshort : tail.length ≤ dl) :
    TIC.from (be32 dl ++ tail) = ⟨(dl : Int), [], []⟩ := by
  have hlen : (be32 dl ++ tail).length = 4 + tail.length := by
    simp [be32]
    omega
  have hdl4 : (if 4 ≤ (be32 dl ++ tail).length
      then readU32 (be32 dl ++ tail) else 0) = dl := by
    rw [if_pos (by omega), readU32_be32 dl tail hdl]
  have hgo : fromGo (be32 dl ++ tail) (dl + 4) (dl + 5) 4 [] = [] := by
    rw [show dl + 5 = (dl + 4) + 1 from rfl, fromGo]
    rw [if_pos (by omega : 4 < dl + 4)]
    rw [if_pos (by omega : (be32 dl ++ tail).length < 4 + 14)]
  have hdrop : (be32 dl ++ tail).drop (dl + 4) = [] :=
    List.drop_eq_nil_of_le (by omega)
  simp only [TIC.from, hdl4, hgo, hdrop]

/-- Witness for `tic_from_truncated_amended` at `dictLength = 10` and no
further bytes. -/
theorem tic_from_truncated_amended_witness :
    TIC.from (be32 10 ++ []) = ⟨(10 : Int), [], []⟩ :=
  tic_from_truncated_amended 10 [] (by decide) (by decide) (by decide)
    (by decide)

/-- The span-tiling property of the claims, strengthened into the
inductive invariant: in dictionary order, each entry's `byteOffset` equals
the sum of the spans before it, and the running sum ends exactly at the
given length.  It entails that the spans are pairwise disjoint, gap-free,
and exhaust `[0, len)`. -/
def tiledFrom : List (List Nat × TicDictEntry) → Nat → Nat → Bool
  | [], off, len => off == len
  | p :: rest, off, len =>
    (p.2.byteOffset == off) && tiledFrom rest (off + entryDataLength p.2) len

/-- A TIC whose entry spans tile its data chunk in dictionary order. -/
def TIC.tiled (t : TIC) : Bool := tiledFrom t.dict 0 t.dataChunk.length

/-- C3 counterexample: writing the same name twice — a sequence the claim
quantifies over, and one `writeEntry` documents as overwriting — orphans
the first write's span: its bytes stay in the data chunk but no entry
references them, so the entry spans no longer cover the chunk. -/
theorem tic_spans_overwrite_counterexample :
    TIC.tiled ((TIC.writeEntry (TIC.writeEntry {} [97] ⟨[1, 2, 3, 4], 1, 1⟩ 8)
        [97] ⟨[1, 2, 3, 4], 1, 1⟩ 8)) = false := by
  rfl

/-! ## The span-tiling invariant under entry insertion and removal -/

theorem entryDataLength_set_offset (e : TicDictEntry) (v : Nat) :
    entryDataLength { e with byteOffset := v } = entryDataLength e := rfl

theorem tiledFrom_le : ∀ (l : List (List Nat × TicDictEntry)) (off len : Nat),
    tiledFrom l off len = true → off ≤ len
  | [], off, len, h => by
    simp only [tiledFrom, beq_iff_eq] at h
    omega
  | p :: rest, off, len, h => by
    simp only [tiledFrom, Bool.and_eq_true, beq_iff_eq] at h
    have := tiledFrom_le rest (off + entryDataLength p.2) len h.2
    omega

theorem tiledFrom_mem_le :
    ∀ (l : List (List Nat × TicDictEntry)) (off len : Nat)
      (p : List Nat × TicDictEntry),
      tiledFrom l off len = true → p ∈ l →
      off ≤ p.2.byteOffset ∧ p.2.byteOffset + entryDataLength p.2 ≤ len
  | [], _, _, _, _, hm => absurd hm (List.not_mem_nil _)
  | q :: rest, off, len, p, h, hm => by
    simp only [tiledFrom, Bool.and_eq_true, beq_iff_eq] at h
    rcases List.mem_cons.mp hm with rfl | hm2
    · have := tiledFrom_le rest (off + entryDataLength p.2) len h.2
      omega
    · have := tiledFrom_mem_le rest (off + entryDataLength q.2) len p h.2 hm2
      omega

theorem tiledFrom_append (p : List Nat × TicDictEntry) :
    ∀ (l : List (List Nat × TicDictEntry)) (off len : Nat),
      tiledFrom l off len = true → p.2.byteOffset = len →
      tiledFrom (l ++ [p]) off (len + entryDataLength p.2) = true
  | [], off, len, h, hoff => by
    simp only [tiledFrom, beq_iff_eq] at h
    simp only [List.nil_append, tiledFrom, Bool.and_eq_true, beq_iff_eq]
    constructor
    · omega
    · omega
  | q :: rest, off, len, h, hoff => by
    simp only [tiledFrom, Bool.and_eq_true, beq_iff_eq] at h
    simp only [List.cons_append, tiledFrom, Bool.and_eq_true, beq_iff_eq]
    exact ⟨h.1, tiledFrom_append p rest _ len h.2 hoff⟩

theorem tiledFrom_shift (o0 s : Nat) :
    ∀ (l : List (List Nat × TicDictEntry)) (off len : Nat), o0 ≤ off →
      tiledFrom l (off + s) len = true →
      tiledFrom (l.map fun p =>
          if o0 < p.2.byteOffset then
            (p.1, { p.2 with byteOffset := p.2.byteOffset - s })
          else p) off (len - s) = true
  | [], off, len, ho, h => by
    simp only [tiledFrom, beq_iff_eq] at h
    simp only [List.map_nil, tiledFrom, beq_iff_eq]
    omega
  | p :: rest, off, len, ho, h => by
    simp only [tiledFrom, Bool.and_eq_true, beq_iff_eq] at h
    obtain ⟨hoff, hrest⟩ := h
    have hrest2 : tiledFrom rest ((off + entryDataLength p.2) + s) len = true := by
      rw [show (off + entryDataLength p.2) + s
        = (off + s) + entryDataLength p.2 from by omega]
      exact hrest
    have ih := tiledFrom_shift o0 s rest (off + entryDataLength p.2) len
      (by omega) hrest2
    simp only [List.map_cons, tiledFrom, Bool.and_eq_true, beq_iff_eq]
    by_cases hc : o0 < p.2.byteOffset
    · rw [if_pos hc]
      refine ⟨by simp only; omega, ?_⟩
      simp only [entryDataLength_set_offset]
      exact ih
    · rw [if_neg hc]
      exact ⟨by omega, ih⟩

theorem fst_shift (e0 : TicDictEntry) (s : Nat) (p : List Nat × TicDictEntry) :
    ((fun p => if e0.byteOffset < p.2.byteOffset then
        ((p.1 : List Nat), { p.2 with byteOffset := p.2.byteOffset - s })
      else p) p).1 = p.1 := by
  show (if e0.byteOffset < p.2.byteOffset then
      ((p.1 : List Nat), { p.2 with byteOffset := p.2.byteOffset - s })
    else p).1 = p.1
  by_cases hc : e0.byteOffset < p.2.byteOffset
  · rw [if_pos hc]
  · rw [if_neg hc]

theorem tiledFrom_remove_core (n : List Nat) (e0 : TicDictEntry) :
    ∀ (l : List (List Nat × TicDictEntry)) (off len : Nat),
      tiledFrom l off len = true →
      l.find? (fun p => p.1 == n) = some (n, e0) →
      (l.map Prod.fst).Nodup →
      tiledFrom ((l.map fun p =>
          if e0.byteOffset < p.2.byteOffset then
            (p.1, { p.2 with byteOffset := p.2.byteOffset - entryDataLength e0 })
          else p).filter fun p => !(p.1 == n)) off (len - entryDataLength e0)
        = true
  | [], off, len, ht, hfind, hnd => by simp [List.find?] at hfind
  | p :: rest, off, len, ht, hfind, hnd => by
    simp only [tiledFrom, Bool.and_eq_true, beq_iff_eq] at ht
    obtain ⟨hoff, hrest⟩ := ht
    simp only [List.map_cons, List.nodup_cons] at hnd
    obtain ⟨hfst, hndrest⟩ := hnd
    by_cases hp : (p.1 == n) = true
    · have hpe : p = (n, e0) := by
        simp only [List.find?_cons, hp] at hfind
        exact Option.some.inj hfind
      subst hpe
      simp only at hoff hrest hfst
      have hhead : (fun p => if e0.byteOffset < p.2.byteOffset then
          ((p.1 : List Nat), { p.2 with byteOffset := p.2.byteOffset - entryDataLength e0 })
        else p) ((n : List Nat), e0) = (n, e0) := by
        show (if e0.byteOffset < ((n : List Nat), e0).2.byteOffset then
            ((((n : List Nat), e0).1 : List Nat), { ((n : List Nat), e0).2 with
              byteOffset := ((n : List Nat), e0).2.byteOffset - entryDataLength e0 })
          else ((n : List Nat), e0)) = (n, e0)
        rw [if_neg (by simp)]
      simp only [List.map_cons, hhead, List.filter_cons]
      rw [if_neg (by simp)]
      have hkeep : ∀ q ∈ rest.map (fun p =>
          if e0.byteOffset < p.2.byteOffset then
            ((p.1 : List Nat), { p.2 with byteOffset := p.2.byteOffset - entryDataLength e0 })
          else p), (!(q.1 == n)) = true := by
        intro q hq
        obtain ⟨q0, hq0, hq0eq⟩ := List.mem_map.mp hq
        have hkey : q.1 = q0.1 := by
          rw [← hq0eq, fst_shift]
        have hne : q0.1 ≠ n := by
          intro hqn
          exact hfst (by
            rw [← hqn]
            exact List.mem_map_of_mem Prod.fst hq0)
        simp [hkey, hne]
      rw [List.filter_eq_self.mpr hkeep]
      subst hoff
      exact tiledFrom_shift e0.byteOffset (entryDataLength e0) rest
        e0.byteOffset len (by omega) hrest
    · have hfind2 : rest.find? (fun p => p.1 == n) = some (n, e0) := by
        have hp2 : (p.1 == n) = false := by
          simpa using hp
        simp only [List.find?_cons, hp2] at hfind
        exact hfind
      have hmem : ((n : List Nat), e0) ∈ rest := List.mem_of_find?_eq_some hfind2
      have hb := tiledFrom_mem_le rest (off + entryDataLength p.2) len (n, e0)
        hrest hmem
      simp only at hb
      have hhead : (fun p => if e0.byteOffset < p.2.byteOffset then
          ((p.1 : List Nat), { p.2 with byteOffset := p.2.byteOffset - entryDataLength e0 })
        else p) p = p := by
        show (if e0.byteOffset < p.2.byteOffset then
            ((p.1 : List Nat), { p.2 with byteOffset := p.2.byteOffset - entryDataLength e0 })
          else p) = p
        rw [if_neg (by omega)]
      have ih := tiledFrom_remove_core n e0 rest (off + entryDataLength p.2) len
        hrest hfind2 hndrest
      simp only [List.map_cons, hhead, List.filter_cons]
      rw [if_pos (by simp [hp])]
      simp only [tiledFrom, Bool.and_eq_true, beq_iff_eq]
      exact ⟨hoff, ih⟩

theorem keys_shift_filter (l : List (List Nat × TicDictEntry))
    (e0 : TicDictEntry) (s : Nat) (n : List Nat)
    (hnd : (l.map Prod.fst).Nodup) :
    (((l.map fun p =>
        if e0.byteOffset < p.2.byteOffset then
          (p.1, { p.2 with byteOffset := p.2.byteOffset - s })
        else p).filter fun p => !(p.1 == n)).map Prod.fst).Nodup := by
  have hmapkeys : ((l.map fun p =>
      if e0.byteOffset < p.2.byteOffset then
        (p.1, { p.2 with byteOffset := p.2.byteOffset - s })
      else p).map Prod.fst) = l.map Prod.fst := by
    rw [List.map_map]
    exact List.map_congr_left fun p _ => fst_shift e0 s p
  have hsub : ((l.map fun p =>
      if e0.byteOffset < p.2.byteOffset then
        (p.1, { p.2 with byteOffset := p.2.byteOffset - s })
      else p).filter fun p => !(p.1 == n)).map Prod.fst
        |>.Sublist ((l.map fun p =>
      if e0.byteOffset < p.2.byteOffset then
        (p.1, { p.2 with byteOffset := p.2.byteOffset - s })
      else p).map Prod.fst) :=
    (List.filter_sublist _).map Prod.fst
  rw [hmapkeys] at hsub
  exact hnd.sublist hsub

theorem tiled_removeEntry (t : TIC) (n : List Nat)
    (hnd : (t.dict.map Prod.fst).Nodup) (ht : t.tiled = true) :
    ((t.removeEntry n).dict.map Prod.fst).Nodup
      ∧ (t.removeEntry n).tiled = true := by
  rw [TIC.removeEntry]
  cases hfind : t.dict.find? (fun p => p.1 == n) with
  | none => exact ⟨hnd, ht⟩
  | some pe =>
    obtain ⟨k, e0⟩ := pe
    have hk : k = n := by
      have := List.find?_some hfind
      simpa using this
    subst hk
    have hmem : ((k : List Nat), e0) ∈ t.dict := List.mem_of_find?_eq_some hfind
    have hb := tiledFrom_mem_le t.dict 0 t.dataChunk.length (k, e0) ht hmem
    simp only at hb
    constructor
    · exact keys_shift_filter t.dict e0 (entryDataLength e0) k hnd
    · show tiledFrom _ 0 _ = true
      simp only
      have hlen2 : (t.dataChunk.take e0.byteOffset
          ++ t.dataChunk.drop (e0.byteOffset + entryDataLength e0)).length
          = t.dataChunk.length - entryDataLength e0 := by
        simp only [List.length_append, List.length_take, List.length_drop]
        omega
      rw [hlen2]
      exact tiledFrom_remove_core k e0 t.dict 0 t.dataChunk.length ht hfind hnd

/-! ## Lengths of the converted buffers and of the spec-modelled packer -/

theorem length_packBits4 (bytes : List Nat) (w d : Nat) (nm : Bool)
    (hd : d = 1 ∨ d = 2 ∨ d = 4 ∨ d = 8) :
    (packBits4 bytes w d nm).length = (bytes.length * d + 7) / 8 := by
  rcases hd with rfl | rfl | rfl | rfl
  · simp [packBits4]
  · simp [packBits4]
  · simp [packBits4]
  · simp only [packBits4]
    rw [if_neg (by omega)]
    omega

theorem length_toGrayScale (raw : List Nat) :
    (toGrayScale raw).length = raw.length / 4 := by
  simp [toGrayScale]

theorem length_toGrayScaleAlpha (raw : List Nat) :
    (toGrayScaleAlpha raw).length = raw.length / 2 := by
  simp [toGrayScaleAlpha]

theorem length_toRGB (raw : List Nat) :
    (toRGB raw).length = raw.length * 3 / 4 := by
  simp [toRGB]

theorem tiled_writeEntry (t : TIC) (n : List Nat) (im : PNG) (d : Nat)
    (hnd : (t.dict.map Prod.fst).Nodup) (ht : t.tiled = true)
    (hfresh : t.dict.any (fun p => p.1 == n) = false)
    (hraw : im.raw.length = im.width * im.height * 4)
    (hd : d = 1 ∨ d = 2 ∨ d = 4 ∨ d = 8) :
    (((t.writeEntry n im d).dict.map Prod.fst).Nodup)
      ∧ (t.writeEntry n im d).tiled = true := by
  have hnotin : n ∉ t.dict.map Prod.fst := by
    intro hmemn
    obtain ⟨p, hp, hpeq⟩ := List.mem_map.mp hmemn
    have : t.dict.any (fun p => p.1 == n) = true :=
      List.any_eq_true.mpr ⟨p, hp, by simp [hpeq]⟩
    rw [hfresh] at this
    exact Bool.false_ne_true this
  have hspan : (packBits4
      (if canBeGrayScale im.raw then toGrayScale im.raw
       else if canBeGrayScaleAlpha im.raw then toGrayScaleAlpha im.raw
       else if canBeRGB im.raw then toRGB im.raw
       else im.raw) im.width d false).length
      = (im.width * im.height * ticColorFormats
          (if canBeGrayScale im.raw then .GrayScale
           else if canBeGrayScaleAlpha im.raw then .GrayScaleAlpha
           else if canBeRGB im.raw then .RGB
           else .RGBA) * d + 7) / 8 := by
    have henclen : (if canBeGrayScale im.raw then toGrayScale im.raw
        else if canBeGrayScaleAlpha im.raw then toGrayScaleAlpha im.raw
        else if canBeRGB im.raw then toRGB im.raw
        else im.raw).length
        = im.width * im.height * ticColorFormats
          (if canBeGrayScale im.raw then .GrayScale
           else if canBeGrayScaleAlpha im.raw then .GrayScaleAlpha
           else if canBeRGB im.raw then .RGB
           else .RGBA) := by
      by_cases h1 : canBeGrayScale im.raw
      · rw [if_pos h1, if_pos h1, length_toGrayScale]
        simp only [ticColorFormats]
        omega
      · rw [if_neg h1, if_neg h1]
        by_cases h2 : canBeGrayScaleAlpha im.raw
        · rw [if_pos h2, if_pos h2, length_toGrayScaleAlpha]
          simp only [ticColorFormats]
          omega
        · rw [if_neg h2, if_neg h2]
          by_cases h3 : canBeRGB im.raw
          · rw [if_pos h3, if_pos h3, length_toRGB]
            simp only [ticColorFormats]
            omega
          · rw [if_neg h3, if_neg h3]
            simp only [ticColorFormats]
            omega
    rw [length_packBits4 _ _ _ _ hd, henclen]
  have hdict : (t.writeEntry n im d).dict = t.dict
      ++ [(n, { byteOffset := t.dataChunk.length, width := im.width,
                height := im.height,
                colorFormat := (if canBeGrayScale im.raw then .GrayScale
                  else if canBeGrayScaleAlpha im.raw then .GrayScaleAlpha
                  else if canBeRGB im.raw then .RGB
                  else .RGBA),
                bitDepth := d, nameLength := n.length, name := n })] := by
    simp only [TIC.writeEntry, mapSet, hfresh, Bool.false_eq_true, if_false]
  have hchunk : (t.writeEntry n im d).dataChunk = t.dataChunk
      ++ packBits4
        (if canBeGrayScale im.raw then toGrayScale im.raw
         else if canBeGrayScaleAlpha im.raw then toGrayScaleAlpha im.raw
         else if canBeRGB im.raw then toRGB im.raw
         else im.raw) im.width d false := by
    simp only [TIC.writeEntry]
  constructor
  · rw [hdict, List.map_append, List.map_cons, List.map_nil]
    rw [List.nodup_append]
    refine ⟨hnd, List.nodup_singleton n, ?_⟩
    intro a ha hb
    simp only [List.mem_singleton] at hb
    subst hb
    exact hnotin ha
  · show tiledFrom _ 0 _ = true
    rw [hdict, hchunk, List.length_append, hspan]
    exact tiledFrom_append _ t.dict 0 t.dataChunk.length ht rfl

/-! ## Operation sequences on a TIC -/

/-- One container mutation of the claim's lifecycle. -/
inductive TICOp where
  | write (name : List Nat) (im : PNG) (depth : Nat)
  | remove (name : List Nat)
deriving Repr

/-- Apply one operation. -/
def TIC.applyOp (t : TIC) : TICOp → TIC
  | .write n im d => t.writeEntry n im d
  | .remove n => t.removeEntry n

/-- The amended claim's precondition on one operation: a written name is
fresh, the written image is RGBA-shaped, and the depth is legal. -/
def okOp (t : TIC) : TICOp → Bool
  | .write n im d => t.dict.all (fun p => !(p.1 == n))
      && (im.raw.length == im.width * im.height * 4)
      && (d == 1 || d == 2 || d == 4 || d == 8)
  | .remove _ => true

/-- `okOp` at every step of a call sequence. -/
def okSeq : TIC → List TICOp → Bool
  | _, [] => true
  | t, op :: rest => okOp t op && okSeq (t.applyOp op) rest

theorem tiled_applyOp (t : TIC) (op : TICOp)
    (hnd : (t.dict.map Prod.fst).Nodup) (ht : t.tiled = true)
    (hok : okOp t op = true) :
    ((t.applyOp op).dict.map Prod.fst).Nodup ∧ (t.applyOp op).tiled = true := by
  cases op with
  | write n im d =>
    simp only [okOp, Bool.and_eq_true, Bool.or_eq_true, beq_iff_eq,
      List.all_eq_true] at hok
    obtain ⟨⟨hfresh, hraw⟩, hdep⟩ := hok
    have hfresh2 : t.dict.any (fun p => p.1 == n) = false := by
      rw [List.any_eq_false]
      intro p hp
      have := hfresh p hp
      simp only [Bool.not_eq_eq_eq_not, Bool.not_true] at this
      simp [this]
    exact tiled_writeEntry t n im d hnd ht hfresh2 hraw (by tauto)
  | remove n => exact tiled_removeEntry t n hnd ht

theorem okSeq_tiled : ∀ (ops : List TICOp) (t : TIC),
    (t.dict.map Prod.fst).Nodup → t.tiled = true → okSeq t ops = true →
    ((ops.foldl TIC.applyOp t).dict.map Prod.fst).Nodup
      ∧ (ops.foldl TIC.applyOp t).tiled = true
  | [], t, hnd, ht, _ => ⟨hnd, ht⟩
  | op :: rest, t, hnd, ht, hseq => by
    simp only [okSeq, Bool.and_eq_true] at hseq
    have h := tiled_applyOp t op hnd ht hseq.1
    simpa [List.foldl_cons] using
      okSeq_tiled rest (t.applyOp op) h.1 h.2 hseq.2

/-- C3 (amended): after any sequence of `writeEntry`/`removeEntry` calls on
an initially empty TIC in which every written name is fresh, every written
image RGBA-shaped and every bit depth legal, the entries' data spans tile
the data chunk in dictionary order: consecutive, pairwise disjoint,
gap-free, and exhausting `[0, dataChunk.length)`.  Rewriting an existing
name breaks the property, because `writeEntry` deletes the old entry
without reclaiming its span — see the counterexample. -/
theorem tic_spans_invariant_amended (ops : List TICOp)
    (hok : okSeq {} ops = true) :
    TIC.tiled (ops.foldl TIC.applyOp {}) = true :=
  (okSeq_tiled ops {} (by simp) (by rfl) hok).2

/-- Witness for `tic_spans_invariant_amended`: write two entries, remove
the first. -/
theorem tic_spans_invariant_amended_witness :
    TIC.tiled ([TICOp.write [97] ⟨[1, 2, 3, 255], 1, 1⟩ 8,
        TICOp.write [98] ⟨[9, 9, 9, 9], 1, 1⟩ 8,
        TICOp.remove [97]].foldl TIC.applyOp {}) = true :=
  tic_spans_invariant_amended _ (by decide)

/-! ## The TIC binary round trip -/

/-- A dictionary entry the serialized format can represent faithfully:
`nameLength` agrees with the (byte-valued, at most 255 byte) name, the u32
fields fit, the bit depth is a legal power of two, and the data span is
non-empty (`validate` removes zero-length spans, since their `byteOffset`
can never be strictly inside the data chunk). -/
def TicEntryGood (e : TicDictEntry) : Prop :=
  e.nameLength = e.name.length ∧ e.name.length ≤ 255
    ∧ (∀ b ∈ e.name, b < 256)
    ∧ e.byteOffset < 2 ^ 32 ∧ e.width < 2 ^ 32 ∧ e.height < 2 ^ 32
    ∧ (e.bitDepth = 1 ∨ e.bitDepth = 2 ∨ e.bitDepth = 4 ∨ e.bitDepth = 8)
    ∧ 1 ≤ entryDataLength e

/-- The dictionary's total serialized size, `Σ (14 + nameLength)`. -/
def dictSum (l : List (List Nat × TicDictEntry)) : Nat :=
  (l.map fun p => 14 + p.2.nameLength).sum

/-- A self-consistent container: good entries keyed by their names, no
duplicate keys, a stored `dictLength` matching the dictionary and fitting
in a u32, and spans tiling the data chunk. -/
def TicGood (t : TIC) : Prop :=
  (∀ p ∈ t.dict, p.1 = p.2.name ∧ TicEntryGood p.2)
    ∧ (t.dict.map Prod.fst).Nodup
    ∧ t.dictLength = (dictSum t.dict : Int)
    ∧ dictSum t.dict < 2 ^ 32
    ∧ tiledFrom t.dict 0 t.dataChunk.length = true

instance (e : TicDictEntry) : Decidable (TicEntryGood e) := by
  unfold TicEntryGood
  infer_instance

instance (t : TIC) : Decidable (TicGood t) := by
  unfold TicGood
  infer_instance

theorem length_dictEntryBytes (e : TicDictEntry) :
    (dictEntryBytes e).length = 14 + e.name.length := by
  simp [dictEntryBytes, be32]
  omega

theorem map_mod_256 (l : List Nat) (h : ∀ b ∈ l, b < 256) :
    l.map (· % 256) = l := by
  induction l with
  | nil => rfl
  | cons b rest ih =>
    simp only [List.map_cons]
    rw [Nat.mod_eq_of_lt (h b (List.mem_cons_self b rest)),
      ih (fun x hx => h x (List.mem_cons_of_mem b hx))]

theorem formatByte_roundtrip (cf : TicColorFormat) (d : Nat)
    (hd : d = 1 ∨ d = 2 ∨ d = 4 ∨ d = 8) :
    (ticColorFormatsRev ((((((ticColorFormats cf - 1) <<< 6)
          + (log2floor d <<< 4)) % 256) >>> 6) + 1)).getD .GrayScale = cf
    ∧ 1 <<< ((((((ticColorFormats cf - 1) <<< 6)
          + (log2floor d <<< 4)) % 256) >>> 4) &&& 3) = d := by
  rcases hd with rfl | rfl | rfl | rfl <;> cases cf <;>
    exact ⟨by decide, by decide⟩

theorem setBytes?_eq (buf : List Nat) (off : Nat) (data : List Nat)
    (h : off + data.length ≤ buf.length) :
    setBytes? buf off data
      = some (buf.take off ++ data ++ buf.drop (off + data.length)) := by
  rw [setBytes?, if_pos h]

theorem fixEntry_id (e : TicDictEntry) (h1 : e.nameLength = e.name.length)
    (h2 : e.name.length ≤ 255) : fixEntry e = e := by
  rw [fixEntry, if_neg (by omega), ← h1]

theorem length_sum_ge (l : List (List Nat × TicDictEntry)) :
    l.length ≤ dictSum l := by
  induction l with
  | nil => simp [dictSum]
  | cons p rest ih =>
    simp only [dictSum, List.map_cons, List.sum_cons, List.length_cons] at ih ⊢
    omega

theorem length_flatMap_blocks (l : List (List Nat × TicDictEntry))
    (h : ∀ p ∈ l, p.1 = p.2.name ∧ TicEntryGood p.2) :
    (l.flatMap fun p => dictEntryBytes p.2).length = dictSum l := by
  induction l with
  | nil => rfl
  | cons p rest ih =>
    simp only [dictSum, List.flatMap_cons, List.length_append, List.map_cons,
      List.sum_cons, length_dictEntryBytes] at ih ⊢
    rw [ih (fun q hq => h q (List.mem_cons_of_mem p hq))]
    have := (h p (List.mem_cons_self p rest)).2.1
    omega

theorem validate_of_good (t : TIC)
    (hent : ∀ p ∈ t.dict, p.1 = p.2.name ∧ TicEntryGood p.2)
    (htile : tiledFrom t.dict 0 t.dataChunk.length = true) :
    TIC.validate t = t := by
  have hfix : (t.dict.map fun p => (p.1, fixEntry p.2)) = t.dict := by
    have hcongr : ∀ p ∈ t.dict, (p.1, fixEntry p.2) = id p := by
      intro p hp
      obtain ⟨_, hg⟩ := hent p hp
      rw [fixEntry_id p.2 hg.1 hg.2.1]
      rfl
    rw [List.map_congr_left hcongr, List.map_id]
  have hinv : (t.dict.filter fun p =>
      decide (t.dataChunk.length ≤ p.2.byteOffset)
        || decide (t.dataChunk.length < p.2.byteOffset + entryDataLength p.2))
      = [] := by
    rw [List.filter_eq_nil_iff]
    intro p hp
    have hb := tiledFrom_mem_le t.dict 0 t.dataChunk.length p htile hp
    have hspan := (hent p hp).2.2.2.2.2.2.2.2
    simp only [Bool.or_eq_true, decide_eq_true_eq, not_or, not_le, not_lt]
    omega
  rw [TIC.validate, validatePass]
  simp only [hfix, hinv, List.map_nil, List.isEmpty_nil, if_true]

theorem some_bind_list (a : List Nat) (f : List Nat → Option (List Nat)) :
    (some a).bind f = f a := rfl

theorem writeDictGo_zeros :
    ∀ (l : List (List Nat × TicDictEntry)) (pre : List Nat) (m : Nat),
      (l.flatMap fun p => dictEntryBytes p.2).length ≤ m →
      writeDictGo l (pre ++ List.replicate m 0) pre.length
        = some (pre ++ ((l.flatMap fun p => dictEntryBytes p.2)
            ++ List.replicate
              (m - (l.flatMap fun p => dictEntryBytes p.2).length) 0))
  | [], pre, m, h => by
    simp [writeDictGo]
  | p :: rest, pre, m, h => by
    have hflat : ((p :: rest).flatMap fun q => dictEntryBytes q.2)
        = dictEntryBytes p.2 ++ (rest.flatMap fun q => dictEntryBytes q.2) :=
      List.flatMap_cons p rest _
    rw [hflat] at h
    rw [List.length_append] at h
    have hset : setBytes? (pre ++ List.replicate m 0) pre.length
        (dictEntryBytes p.2)
        = some ((pre ++ dictEntryBytes p.2)
            ++ List.replicate (m - (dictEntryBytes p.2).length) 0) := by
      rw [setBytes?_eq _ _ _ (by
        simp only [List.length_append, List.length_replicate]
        omega)]
      rw [List.take_left' rfl]
      rw [← List.drop_drop, List.drop_left' rfl, List.drop_replicate]
    rw [writeDictGo]
    simp only [hset, some_bind_list]
    have ih := writeDictGo_zeros rest (pre ++ dictEntryBytes p.2)
      (m - (dictEntryBytes p.2).length) (by omega)
    rw [List.length_append] at ih
    rw [ih, hflat]
    simp only [List.length_append]
    have hm : m - (dictEntryBytes p.2).length
        - (rest.flatMap fun q => dictEntryBytes q.2).length
        = m - ((dictEntryBytes p.2).length
          + (rest.flatMap fun q => dictEntryBytes q.2).length) := by
      omega
    rw [hm]
    simp [List.append_assoc]

theorem encode_of_good (t : TIC) (h : TicGood t) :
    TIC.encode t = some (be32 (dictSum t.dict)
      ++ ((t.dict.flatMap fun p => dictEntryBytes p.2) ++ t.dataChunk)) := by
  obtain ⟨hent, hnd, hdl, hlt, htile⟩ := h
  have hblocks : (t.dict.flatMap fun p => dictEntryBytes p.2).length
      = dictSum t.dict := length_flatMap_blocks t.dict hent
  simp only [TIC.encode]
  rw [validate_of_good t hent htile]
  rw [hdl]
  rw [if_neg (by omega :
    ¬ ((dictSum t.dict : Int) + (t.dataChunk.length : Int) + 4 < 0))]
  have hsize : ((dictSum t.dict : Int) + (t.dataChunk.length : Int) + 4).toNat
      = dictSum t.dict + t.dataChunk.length + 4 := by omega
  rw [hsize]
  have hmod : (((dictSum t.dict : Int)) % (2 ^ 32 : Int)).toNat
      = dictSum t.dict := by omega
  rw [hmod]
  have hhdr : setBytes?
      (List.replicate (dictSum t.dict + t.dataChunk.length + 4) 0) 0
      (be32 (dictSum t.dict))
      = some (be32 (dictSum t.dict)
          ++ List.replicate (dictSum t.dict + t.dataChunk.length) 0) := by
    rw [setBytes?_eq _ _ _ (by
      simp only [List.length_replicate, length_be32]
      omega)]
    rw [List.take_zero, List.nil_append, length_be32, Nat.zero_add,
      List.drop_replicate,
      show dictSum t.dict + t.dataChunk.length + 4 - 4
        = dictSum t.dict + t.dataChunk.length from by omega]
  simp only [hhdr, some_bind_list]
  have hdict := writeDictGo_zeros t.dict (be32 (dictSum t.dict))
    (dictSum t.dict + t.dataChunk.length) (by omega)
  rw [show (be32 (dictSum t.dict)).length = 4 from length_be32 _] at hdict
  simp only [hdict, some_bind_list]
  rw [if_neg (by omega : ¬ ((dictSum t.dict : Int) < 0))]
  have htn : ((dictSum t.dict : Int)).toNat = dictSum t.dict := by omega
  rw [htn]
  rw [hblocks]
  rw [show dictSum t.dict + t.dataChunk.length - dictSum t.dict
    = t.dataChunk.length from by omega]
  rw [setBytes?_eq _ _ _ (by
    simp only [List.length_append, List.length_replicate, length_be32, hblocks]
    omega)]
  rw [← List.append_assoc]
  rw [List.take_left' (by
    simp only [List.length_append, length_be32, hblocks]
    omega)]
  rw [show dictSum t.dict + 4 + t.dataChunk.length
    = (4 + dictSum t.dict) + t.dataChunk.length from by omega]
  rw [← List.drop_drop]
  rw [List.drop_left' (by
    simp only [List.length_append, length_be32, hblocks])]
  simp [List.append_assoc]

theorem tic_entry_reads (pre : List Nat) (e : TicDictEntry) (rest : List Nat)
    (hbo : e.byteOffset < 2 ^ 32) (hw : e.width < 2 ^ 32)
    (hh : e.height < 2 ^ 32) (hbytes : ∀ b ∈ e.name, b < 256) :
    readU32 ((pre ++ (dictEntryBytes e ++ rest)).drop pre.length) = e.byteOffset
    ∧ readU32 ((pre ++ (dictEntryBytes e ++ rest)).drop (pre.length + 4))
        = e.width
    ∧ readU32 ((pre ++ (dictEntryBytes e ++ rest)).drop (pre.length + 8))
        = e.height
    ∧ (pre ++ (dictEntryBytes e ++ rest)).getD (pre.length + 12) 0
        = (((ticColorFormats e.colorFormat - 1) <<< 6)
            + (log2floor e.bitDepth <<< 4)) % 256
    ∧ (pre ++ (dictEntryBytes e ++ rest)).getD (pre.length + 13) 0
        = e.nameLength % 256
    ∧ ((pre ++ (dictEntryBytes e ++ rest)).drop (pre.length + 14)).take
        e.name.length = e.name
    ∧ (pre ++ (dictEntryBytes e ++ rest)).length
        = pre.length + ((14 + e.name.length) + rest.length) := by
  have h0 : (pre ++ (dictEntryBytes e ++ rest)).drop pre.length
      = dictEntryBytes e ++ rest := List.drop_left' rfl
  have hshape : dictEntryBytes e ++ rest
      = be32 e.byteOffset ++ (be32 e.width ++ (be32 e.height
        ++ ([(((ticColorFormats e.colorFormat - 1) <<< 6)
              + (log2floor e.bitDepth <<< 4)) % 256,
            e.nameLength % 256]
          ++ (e.name.map (· % 256) ++ rest)))) := by
    simp [dictEntryBytes, List.append_assoc]
  refine ⟨?_, ?_, ?_, ?_, ?_, ?_, ?_⟩
  · rw [h0, hshape]
    exact readU32_be32 _ _ hbo
  · rw [← List.drop_drop, h0, hshape, List.drop_left' (length_be32 _)]
    exact readU32_be32 _ _ hw
  · rw [← List.drop_drop, h0, hshape]
    rw [show (8 : Nat) = 4 + 4 from rfl, ← List.drop_drop,
      List.drop_left' (length_be32 _), List.drop_left' (length_be32 _)]
    exact readU32_be32 _ _ hh
  · rw [getD_eq_getD_drop _ (pre.length + 12), ← List.drop_drop, h0, hshape]
    rw [show (12 : Nat) = 4 + 8 from rfl, ← List.drop_drop,
      List.drop_left' (length_be32 _)]
    rw [show (8 : Nat) = 4 + 4 from rfl, ← List.drop_drop,
      List.drop_left' (length_be32 _), List.drop_left' (length_be32 _)]
    rfl
  · rw [getD_eq_getD_drop _ (pre.length + 13), ← List.drop_drop, h0, hshape]
    rw [show (13 : Nat) = 4 + 9 from rfl, ← List.drop_drop,
      List.drop_left' (length_be32 _)]
    rw [show (9 : Nat) = 4 + 5 from rfl, ← List.drop_drop,
      List.drop_left' (length_be32 _)]
    rw [show (5 : Nat) = 4 + 1 from rfl, ← List.drop_drop,
      List.drop_left' (length_be32 _)]
    rfl
  · have hshape2 : dictEntryBytes e ++ rest
        = (be32 e.byteOffset ++ be32 e.width ++ be32 e.height
            ++ [(((ticColorFormats e.colorFormat - 1) <<< 6)
                  + (log2floor e.bitDepth <<< 4)) % 256,
                e.nameLength % 256])
          ++ (e.name.map (· % 256) ++ rest) := by
      simp [dictEntryBytes, List.append_assoc]
    rw [← List.drop_drop, h0, hshape2,
      List.drop_left' (show (be32 e.byteOffset ++ be32 e.width ++ be32 e.height
        ++ [(((ticColorFormats e.colorFormat - 1) <<< 6)
              + (log2floor e.bitDepth <<< 4)) % 256,
            e.nameLength % 256]).length = 14 from by simp [be32])]
    rw [List.take_left' (by rw [List.length_map])]
    exact map_mod_256 e.name hbytes
  · rw [List.length_append, List.length_append, length_dictEntryBytes]

theorem fromGo_parses (data : List Nat) :
    ∀ (l : List (List Nat × TicDictEntry)) (acc : List (List Nat × TicDictEntry))
      (pre : List Nat) (fuel : Nat),
      (∀ p ∈ l, p.1 = p.2.name ∧ TicEntryGood p.2) →
      ((acc.map Prod.fst) ++ l.map Prod.fst).Nodup →
      l.length < fuel →
      fromGo (pre ++ ((l.flatMap fun p => dictEntryBytes p.2) ++ data))
          (pre.length + (l.flatMap fun p => dictEntryBytes p.2).length)
          fuel pre.length acc
        = acc ++ l
  | [], acc, pre, fuel, hent, hnd, hfuel => by
    obtain ⟨f, rfl⟩ := Nat.exists_eq_succ_of_ne_zero
      (show fuel ≠ 0 by omega)
    rw [fromGo]
    rw [if_neg (by simp)]
    simp
  | p :: rest, acc, pre, fuel, hent, hnd, hfuel => by
    obtain ⟨f, rfl⟩ := Nat.exists_eq_succ_of_ne_zero
      (show fuel ≠ 0 by omega)
    obtain ⟨hkey, hG⟩ := hent p (List.mem_cons_self p rest)
    obtain ⟨hnl, hn255, hbytes, hbo, hwlt, hhlt, hdep, _⟩ := hG
    have hraweq : (((p :: rest).flatMap fun q => dictEntryBytes q.2) ++ data)
        = dictEntryBytes p.2
          ++ ((rest.flatMap fun q => dictEntryBytes q.2) ++ data) := by
      simp [List.flatMap_cons, List.append_assoc]
    have hlencons : ((p :: rest).flatMap fun q => dictEntryBytes q.2).length
        = (14 + p.2.name.length)
          + (rest.flatMap fun q => dictEntryBytes q.2).length := by
      simp [List.flatMap_cons, length_dictEntryBytes]
    have hr := tic_entry_reads pre p.2
      ((rest.flatMap fun q => dictEntryBytes q.2) ++ data) hbo hwlt hhlt hbytes
    obtain ⟨hr0, hr4, hr8, hr12, hr13, hrname, hrlen⟩ := hr
    rw [← hraweq] at hr0 hr4 hr8 hr12 hr13 hrname hrlen
    have hnlmod : p.2.nameLength % 256 = p.2.nameLength :=
      Nat.mod_eq_of_lt (by omega)
    rw [hnlmod] at hr13
    have hfb := formatByte_roundtrip p.2.colorFormat p.2.bitDepth hdep
    rw [fromGo]
    rw [if_pos (by rw [hlencons]; omega)]
    rw [if_neg (by rw [hrlen]; omega)]
    simp only [hr0, hr4, hr8, hr12, hr13, hrname, hfb.1, hfb.2, hnl]
    have heta : TicDictEntry.mk p.2.byteOffset p.2.width p.2.height
        p.2.colorFormat p.2.bitDepth p.2.name.length p.2.name = p.2 := by
      rw [← hnl]
    have hnotacc : acc.any (fun q => q.1 == p.2.name) = false := by
      rw [List.any_eq_false]
      intro q hq
      have hdisj := List.disjoint_of_nodup_append hnd
      have hqk : q.1 ∈ acc.map Prod.fst := List.mem_map_of_mem Prod.fst hq
      have hpk : p.1 ∈ (p :: rest).map Prod.fst := by
        simp
      have hqne : q.1 ≠ p.1 := by
        intro hqp
        exact hdisj hqk (by rw [← hqp] at hpk; exact hpk)
      rw [hkey] at hqne
      simp [hqne]
    rw [heta]
    rw [show mapSet acc p.2.name p.2 = acc ++ [(p.2.name, p.2)] from by
      rw [mapSet, if_neg (by rw [hnotacc]; simp)]]
    rw [show ((p.2.name : List Nat), p.2) = p from by rw [← hkey]]
    rw [hraweq, hlencons]
    have ihh := fromGo_parses data rest (acc ++ [p])
      (pre ++ dictEntryBytes p.2) f
      (fun q hq => hent q (List.mem_cons_of_mem p hq))
      (by simpa [List.append_assoc] using hnd)
      (by simp only [List.length_cons] at hfuel; omega)
    rw [List.append_assoc] at ihh
    rw [show (pre ++ dictEntryBytes p.2).length
      = pre.length + (14 + p.2.name.length)
      from by rw [List.length_append, length_dictEntryBytes]] at ihh
    rw [show pre.length + (14 + p.2.name.length)
        + (rest.flatMap fun q => dictEntryBytes q.2).length
      = pre.length + (14 + p.2.name.length
        + (rest.flatMap fun q => dictEntryBytes q.2).length)
      from by omega] at ihh
    rw [List.append_assoc, List.singleton_append] at ihh
    rw [show pre.length + 14 + p.2.name.length
      = pre.length + (14 + p.2.name.length) from by omega]
    exact ihh

theorem dictSum_cast (t : TIC) : ((dictSum t.dict : Nat) : Int)
    = (dictSum t.dict : Int) := rfl

/-- C10: serializing a self-consistent container (`TicGood`: names at most
255 bytes with matching `nameLength` and byte-valued characters, u32-sized
offsets and dimensions, power-of-two bit depths, `dictLength` equal to the
sum of `14 + nameLength` over the dictionary and fitting a u32, spans
tiling the data chunk) and parsing it back yields the same container:
same `dictLength`, same dictionary in the same order, byte-equal data
chunk. -/
theorem tic_from_encode_roundtrip (t : TIC) (h : TicGood t) :
    (TIC.encode t).map TIC.from = some t := by
  obtain ⟨hent, hnd, hdl, hlt, htile⟩ := h
  rw [encode_of_good t ⟨hent, hnd, hdl, hlt, htile⟩, Option.map_some']
  have hblocks : (t.dict.flatMap fun p => dictEntryBytes p.2).length
      = dictSum t.dict := length_flatMap_blocks t.dict hent
  have hdl4 : (if 4 ≤ (be32 (dictSum t.dict)
        ++ ((t.dict.flatMap fun p => dictEntryBytes p.2)
          ++ t.dataChunk)).length
      then readU32 (be32 (dictSum t.dict)
        ++ ((t.dict.flatMap fun p => dictEntryBytes p.2) ++ t.dataChunk))
      else 0) = dictSum t.dict := by
    rw [if_pos (by simp), readU32_be32 _ _ hlt]
  have hgo0 := fromGo_parses t.dataChunk t.dict [] (be32 (dictSum t.dict))
    (dictSum t.dict + 5) hent (by simpa using hnd)
    (by have := length_sum_ge t.dict; omega)
  rw [length_be32, hblocks, List.nil_append] at hgo0
  have hgo : fromGo (be32 (dictSum t.dict)
      ++ ((t.dict.flatMap fun p => dictEntryBytes p.2) ++ t.dataChunk))
      (dictSum t.dict + 4) (dictSum t.dict + 5) 4 [] = t.dict := by
    rw [Nat.add_comm (dictSum t.dict) 4]
    exact hgo0
  have hdrop : (be32 (dictSum t.dict)
      ++ ((t.dict.flatMap fun p => dictEntryBytes p.2)
        ++ t.dataChunk)).drop (dictSum t.dict + 4) = t.dataChunk := by
    rw [← List.append_assoc]
    exact List.drop_left'
      (by rw [List.length_append, length_be32, hblocks]; omega)
  simp only [TIC.from, hdl4, hgo, hdrop]
  rw [← hdl]

/-- The serialized format byte keeps only `log2(bitDepth)`, so a container
whose entry has `bitDepth = 3` — which the claim's self-consistency
conditions (names, `dictLength` sum, span tiling) do not exclude — comes
back with `bitDepth = 2` and the round-trip fails. -/
def ticBitDepth3 : TIC :=
  TIC.mk 15
    [([97], TicDictEntry.mk 0 1 1 TicColorFormat.GrayScale 3 1 [97])]
    [42]

/-- C10 counterexample: `ticBitDepth3` satisfies every condition the claim
states — its one entry has a 1-byte name with `nameLength = 1`,
`dictLength = 15 = 14 + 1` equals the dictionary sum, and the entry span
exactly tiles `[0, 1)` — yet `TIC.from (encode ticBitDepth3)` differs from
`ticBitDepth3`, because the format byte stores only the exponent of the
bit depth and `3` is not a power of two. -/
theorem tic_from_encode_bitdepth_counterexample :
    ticBitDepth3.dictLength = (dictSum ticBitDepth3.dict : Int)
    ∧ tiledFrom ticBitDepth3.dict 0 ticBitDepth3.dataChunk.length = true
    ∧ (TIC.encode ticBitDepth3).map TIC.from ≠ some ticBitDepth3 := by
  exact ⟨by decide, by decide, by decide⟩

/-- Witness for `tic_from_encode_roundtrip` at a one-entry container
(1×1 gray-scale tile at depth 8, name "a"). -/
theorem tic_from_encode_roundtrip_witness :
    (TIC.encode (TIC.mk 15
      [([97], TicDictEntry.mk 0 1 1 TicColorFormat.GrayScale 8 1 [97])]
      [42])).map TIC.from
    = some (TIC.mk 15
      [([97], TicDictEntry.mk 0 1 1 TicColorFormat.GrayScale 8 1 [97])]
      [42]) :=
  tic_from_encode_roundtrip _ (by decide)

/-- C1 counterexample: a 1×1 gray-scale image encoded from the single
sample `[5]` decodes back to the gray-scale `DecodeResult` with raw `[5]`,
and promoting that result to RGBA with the matching converter
(`fromGrayScale` after bit unpacking) yields `[5, 5, 5, 255]`, which is
not the original raw buffer `[5]`: the round-trip is exact at the
`DecodeResult` level, not after RGBA promotion as the claim states. -/
theorem decode_encode_promote_counterexample :
    (encode (fun x => x) (fun _ => 0)
        (EncodeOpts.mk [5] 1 1 8 ColorFormat.GrayScale none)).bind
        (decode Except.ok)
      = .ok (DecodeResult.mk [5] 1 1 8 ColorFormat.GrayScale none none none)
    ∧ fromGrayScale (unpackBits [5] 8 true) = [5, 5, 5, 255]
    ∧ fromGrayScale (unpackBits [5] 8 true) ≠ [5] :=
  ⟨by rfl, by decide, by decide⟩

/-- Witness for `decode_encode_roundtrip` at a 2×1 RGBA image with bytes
`[1..8]`, identity deflate/inflate and a zero CRC. -/
theorem decode_encode_roundtrip_witness :
    (encode (fun x => x) (fun _ => 0)
        (EncodeOpts.mk [1, 2, 3, 4, 5, 6, 7, 8] 2 1 8
          ColorFormat.RGBA none)).bind (decode Except.ok)
      = .ok { raw := [1, 2, 3, 4, 5, 6, 7, 8], width := 2, height := 1,
              bitDepth := 8, colorFormat := ColorFormat.RGBA,
              palette := if ColorFormat.RGBA = ColorFormat.Indexed
                then some ((none : Option (List Nat)).getD []) else none,
              trns := none, gamma := none } :=
  decode_encode_roundtrip Except.ok (fun x => x) (fun _ => 0)
    (EncodeOpts.mk [1, 2, 3, 4, 5, 6, 7, 8] 2 1 8 ColorFormat.RGBA none)
    (fun _ => rfl) (by decide) (by decide) (by decide) (by decide)
    (by decide) (by decide) (by decide)

end PNGSpec
